import Mathlib

/-!
Verification of the figjar plugin-data storage layer.

The definitions below are a shallow embedding of the TypeScript sources:
`src/PluginData.ts`, `src/core/ChunkManager.ts`, `src/core/IntegrityValidator.ts`,
`src/core/Compressor.ts` and `GlobalQuotaManager` (whose class body ships
inside `src/core/Compressor.test.ts`).  JavaScript strings are modelled as Lean
`String`s (lists of characters); `String.length` models the JS `.length`
and `blobSize` models `new Blob([s]).size` (UTF-8 byte count).  The byte
transform (fflate gzip wrapped by `Compressor`) is an external collaborator
and is modelled as an abstract pair of partial functions; `none` models a
thrown `CompressionError`.  The host's `JSON.parse` / `JSON.stringify` are
modelled by an executable JSON grammar (`jsonParse` / `stringifyJson`) with
numbers kept as their raw numeral text.
-/

set_option maxHeartbeats 1000000

namespace Figjar

/-! ## JavaScript values -/

/-- A structured JS value as produced by `JSON.parse`: numbers are kept as
their source numeral text so that no floating-point semantics is needed. -/
inductive JsValue where
  | jnull
  | jbool (b : Bool)
  | jnum (raw : String)
  | jstr (s : String)
  | jarr (elems : List JsValue)
  | jobj (fields : List (String × JsValue))

/-! ## Decimal and base-36 numerals -/

def digitChar10 (d : Nat) : Char := Char.ofNat (48 + d)

def natToDecAux : Nat → Nat → List Char
  | 0, _ => []
  | f + 1, n => if n < 10 then [digitChar10 n] else natToDecAux f (n / 10) ++ [digitChar10 (n % 10)]

/-- Decimal rendering of a natural number, as JS `String(n)` / `JSON.stringify(n)`. -/
def natToDec (n : Nat) : String := ⟨natToDecAux (n + 1) n⟩

def digitChar36 (d : Nat) : Char := if d < 10 then Char.ofNat (48 + d) else Char.ofNat (87 + d)

def natTo36Aux : Nat → Nat → List Char
  | 0, _ => []
  | f + 1, n => if n < 36 then [digitChar36 n] else natTo36Aux f (n / 36) ++ [digitChar36 (n % 36)]

/-- Base-36 rendering, as JS `Math.abs(hash).toString(36)`. -/
def natTo36 (n : Nat) : String := ⟨natTo36Aux (n + 1) n⟩

/-! ## IntegrityValidator (src/core/IntegrityValidator.ts) -/

/-- Coerce an integer to JS signed 32-bit range, as the JS `&` (and `<<`) operators do. -/
def toInt32 (n : Int) : Int := (n + 2147483648) % 4294967296 - 2147483648

/-- One loop iteration of `calculateChecksum`:
`hash = ((hash << 5) - hash) + char; hash = hash & hash;`. -/
def checksumStep (h : Int) (c : Char) : Int := toInt32 (toInt32 (h * 32) - h + (c.toNat : Int))

def checksumHash (s : String) : Int := s.data.foldl checksumStep 0

/-- `IntegrityValidator.calculateChecksum`. -/
def calculateChecksum (s : String) : String := natTo36 (checksumHash s).natAbs

/-- `IntegrityValidator.validate`. -/
def checksumValidate (data expected : String) : Bool := calculateChecksum data == expected

/-! ## Constants -/

/-- `ChunkManager.MAX_ENTRY_SIZE` (100KB per-record ceiling of the backing store). -/
def MAX_ENTRY_SIZE : Nat := 100 * 1024

/-- `ChunkManager.CHUNK_SIZE` (85KB). -/
def CHUNK_SIZE : Nat := 85 * 1024

/-- The shared 5MB quota cap. -/
def QUOTA_LIMIT : Nat := 5 * 1024 * 1024

/-- The absolute per-value cap checked by `setPluginData` before compression (5MB). -/
def DATA_CAP : Nat := 5 * 1024 * 1024

/-- The reserved internal key namespace: `key.startsWith('__fpdu_')`. -/
def reservedPfxChars : List Char := ['_', '_', 'f', 'p', 'd', 'u', '_']

def hasReservedPfx (k : String) : Bool := reservedPfxChars.isPrefixOf k.data

/-! ## ChunkManager (src/core/ChunkManager.ts) -/

/-- `ChunkManager.calculateChunkKey`. -/
def calculateChunkKey (baseKey : String) (index : Nat) : String :=
  "__fpdu_chunk_" ++ baseKey ++ "_" ++ natToDec index

/-- The slicing loop of `ChunkManager.chunk`, on character lists; the fuel is
at least the input length, so it never runs out. -/
def chunkCore : Nat → List Char → List (List Char)
  | 0, _ => []
  | _ + 1, [] => []
  | f + 1, c :: r => (c :: r).take CHUNK_SIZE :: chunkCore f ((c :: r).drop CHUNK_SIZE)

structure ChunkResult where
  chunks : List String
  totalSize : Nat

/-- `ChunkManager.chunk`. -/
def chunk (data : String) : ChunkResult :=
  ⟨(chunkCore data.data.length data.data).map (fun l => ⟨l⟩), data.length⟩

/-- `ChunkManager.getSafeChunkSize` (an `Int`: in JS it can go negative for
very long base keys). -/
def getSafeChunkSize (baseKey : String) : Int :=
  (MAX_ENTRY_SIZE : Int) - ((calculateChunkKey baseKey 999).length : Int)

/-! ## Blob byte size -/

def blobSizeAux : List Char → Nat
  | [] => 0
  | c :: r => c.utf8Size + blobSizeAux r

/-- `new Blob([s]).size`: the UTF-8 byte length of `s`. -/
def blobSize (s : String) : Nat := blobSizeAux s.data

/-! ## The backing store (Figma `node.setPluginData` / `getPluginData`)

A record list with unique keys; writing `""` deletes the record, reading an
absent key yields `""` — exactly the Figma plugin-data contract consumed by
the sources. -/

abbrev Store := List (String × String)

def storeGet : Store → String → String
  | [], _ => ""
  | (k, v) :: r, q => if k = q then v else storeGet r q

def filterKey (s : Store) (k : String) : Store := s.filter (fun p => p.1 ≠ k)

def storePut (s : Store) (k v : String) : Store :=
  if v = "" then filterKey s k else filterKey s k ++ [(k, v)]

def listKeys (s : Store) : List String := s.map (fun p => p.1)

/-! ## GlobalQuotaManager (class body inside src/core/Compressor.test.ts)

The class keeps `usage : Map<nodeId, Map<key, bytes>>`.  The nested map is
flattened here to an association list keyed by the `(nodeId, key)` pair: every
method `PluginData` calls reads or writes one `(nodeId, key)` slot or folds
over all slots, so the flattening is observation-preserving (the empty-node
cleanup in `removeUsage` has no effect on the flattened view, and map
iteration order only feeds the order-independent sum in `getCurrentUsage`). -/

abbrev Ledger := List ((String × String) × Nat)

/-- `GlobalQuotaManager.getKeyUsage(nodeId, key)`:
`this.usage.get(nodeId)?.get(key) || 0` — the recorded byte count, 0 if
absent (and `|| 0` maps a recorded 0 to 0 as well). -/
def getKeyUsage : Ledger → String → String → Nat
  | [], _, _ => 0
  | (p, n) :: r, node, key => if p = (node, key) then n else getKeyUsage r node key

/-- `GlobalQuotaManager.removeUsage(nodeId, key)`: deletes the key's entry
from the node's map (the subsequent empty-node cleanup is invisible in the
flattened representation). -/
def removeUsage (l : Ledger) (node key : String) : Ledger :=
  l.filter (fun e => e.1 ≠ (node, key))

/-- `GlobalQuotaManager.recordUsage(nodeId, key, bytes)`:
`nodeUsage.set(key, bytes)` — upsert with overwrite (not additive)
semantics. -/
def recordUsage (l : Ledger) (node key : String) (bytes : Nat) : Ledger :=
  removeUsage l node key ++ [((node, key), bytes)]

/-- `GlobalQuotaManager.getCurrentUsage()`: sums the recorded byte counts of
all entries over all nodes. -/
def getCurrentUsage (l : Ledger) : Nat := (l.map (fun e => e.2)).sum

/-- `GlobalQuotaManager.canStore(sizeBytes)`:
`getCurrentUsage() + sizeBytes <= MAX_TOTAL_QUOTA` with
`MAX_TOTAL_QUOTA = 5 * 1024 * 1024`. -/
def canStore (l : Ledger) (bytes : Nat) : Bool := getCurrentUsage l + bytes ≤ QUOTA_LIMIT

/-- `GlobalQuotaManager.getRemainingQuota()`:
`MAX_TOTAL_QUOTA - getCurrentUsage()` (a JS number, so `Int` here). -/
def getRemainingQuota (l : Ledger) : Int := (QUOTA_LIMIT : Int) - (getCurrentUsage l : Int)

/-! ## Errors (src/utils/errors.ts) -/

inductive CompOp where
  | compressOp
  | decompressOp
deriving DecidableEq

inductive PDError where
  | invalidKey (key : String)
  | dataTooLarge (size : Nat)
  | quotaExceeded (needed : Nat) (remaining : Int)
  | entryTooLarge (entrySize maxSize : Nat)
  | compressionFailed (op : CompOp)
  | dataCorrupted (key : String)
deriving DecidableEq

/-- The whole mutable world the orchestrator touches: backing store plus the
process-wide quota ledger. -/
structure PDState where
  store : Store
  ledger : Ledger
deriving DecidableEq

/-- The external byte transform (`Compressor` wrapping fflate gzip).  `none`
models a thrown `CompressionError`.  `compressAsync` / `decompressAsync`
invoke the same fflate algorithm with identical options, so both execution
forms share this one model. -/
structure CompressorM where
  compress : String → Option String
  decompress : String → Option String

/-! ## JSON.stringify -/

def escapeChar (c : Char) : List Char :=
  if c = '"' then ['\\', '"']
  else if c = '\\' then ['\\', '\\']
  else if c = '\n' then ['\\', 'n']
  else if c = '\t' then ['\\', 't']
  else if c = '\r' then ['\\', 'r']
  else [c]

def escapeAux : List Char → List Char
  | [] => []
  | c :: r => escapeChar c ++ escapeAux r

def quoteStr (s : String) : String := "\"" ++ ⟨escapeAux s.data⟩ ++ "\""

mutual

/-- The host `JSON.stringify` on structured values. -/
def stringifyJson : JsValue → String
  | .jnull => "null"
  | .jbool true => "true"
  | .jbool false => "false"
  | .jnum raw => raw
  | .jstr s => quoteStr s
  | .jarr xs => "[" ++ stringifyArr xs ++ "]"
  | .jobj fs => "\x7b" ++ stringifyObj fs ++ "\x7d"

def stringifyArr : List JsValue → String
  | [] => ""
  | [x] => stringifyJson x
  | x :: y :: r => stringifyJson x ++ "," ++ stringifyArr (y :: r)

def stringifyObj : List (String × JsValue) → String
  | [] => ""
  | [(k, v)] => quoteStr k ++ ":" ++ stringifyJson v
  | (k, v) :: f :: r => quoteStr k ++ ":" ++ stringifyJson v ++ "," ++ stringifyObj (f :: r)

end

/-! ## JSON.parse

A fuel-indexed recursive-descent parser for the strict JSON grammar
(`jsonParse s = none` models `JSON.parse(s)` throwing).  All character
dispatch is by `if`-chains on equality so that proofs about symbolic
payload fragments can discharge branches with simple facts. -/

def isWsChar (c : Char) : Bool := c == ' ' || c == '\t' || c == '\n' || c == '\r'

def skipWs : List Char → List Char
  | [] => []
  | c :: r => if isWsChar c then skipWs r else c :: r

def hexVal? (c : Char) : Option Nat :=
  if '0' ≤ c ∧ c ≤ '9' then some (c.toNat - 48)
  else if 'a' ≤ c ∧ c ≤ 'f' then some (c.toNat - 87)
  else if 'A' ≤ c ∧ c ≤ 'F' then some (c.toNat - 55)
  else none

def simpleEsc? (c : Char) : Option Char :=
  if c = '"' then some '"'
  else if c = '\\' then some '\\'
  else if c = '/' then some '/'
  else if c = 'n' then some '\n'
  else if c = 't' then some '\t'
  else if c = 'r' then some '\r'
  else if c = 'b' then some (Char.ofNat 8)
  else if c = 'f' then some (Char.ofNat 12)
  else none

/-- Decode a `\uXXXX` escape: four hex digits into one character. -/
def hexVal4? (cs : List Char) : Option Char :=
  match cs.head?, (cs.drop 1).head?, (cs.drop 2).head?, (cs.drop 3).head? with
  | some a, some b, some c, some d =>
    match hexVal? a, hexVal? b, hexVal? c, hexVal? d with
    | some va, some vb, some vc, some vd =>
      some (Char.ofNat (((va * 16 + vb) * 16 + vc) * 16 + vd))
    | _, _, _, _ => none
  | _, _, _, _ => none

/-- Parse the body of a string literal after the opening quote, up to and
including the closing quote; returns the decoded characters and the rest.
The fuel (any amount exceeding the input length) only forces termination. -/
def parseStrAux : Nat → List Char → Option (List Char × List Char)
  | 0, _ => none
  | _ + 1, [] => none
  | f + 1, c :: r =>
    if c = '"' then some ([], r)
    else if c = '\\' then
      match r.head? with
      | none => none
      | some e =>
        match simpleEsc? e with
        | some ec => (parseStrAux f r.tail).map (fun p => (ec :: p.1, p.2))
        | none =>
          if e = 'u' then
            match hexVal4? r.tail with
            | some ch => (parseStrAux f (r.tail.drop 4)).map (fun p => (ch :: p.1, p.2))
            | none => none
          else none
    else if c.toNat < 32 then none
    else (parseStrAux f r).map (fun p => (c :: p.1, p.2))

def parseFracPart : List Char → Option (List Char × List Char)
  | [] => some ([], [])
  | c :: r =>
    if c = '.' then
      let ds := r.takeWhile Char.isDigit
      if ds.isEmpty then none else some ('.' :: ds, r.dropWhile Char.isDigit)
    else some ([], c :: r)

def parseExpPart : List Char → Option (List Char × List Char)
  | [] => some ([], [])
  | c :: r =>
    if c = 'e' ∨ c = 'E' then
      match r with
      | [] => none
      | s :: r2 =>
        if s = '+' ∨ s = '-' then
          let ds := r2.takeWhile Char.isDigit
          if ds.isEmpty then none else some (c :: s :: ds, r2.dropWhile Char.isDigit)
        else
          let ds := r.takeWhile Char.isDigit
          if ds.isEmpty then none else some (c :: ds, r.dropWhile Char.isDigit)
    else some ([], c :: r)

/-- Parse a JSON number, returning its raw numeral text. -/
def parseNum (cs : List Char) : Option (String × List Char) :=
  let p := match cs with
    | c :: r => if c = '-' then ((['-'] : List Char), r) else (([] : List Char), cs)
    | [] => ([], [])
  match p.2 with
  | [] => none
  | c :: r =>
    if c = '0' then
      match parseFracPart r with
      | none => none
      | some (fp, r1) =>
        match parseExpPart r1 with
        | none => none
        | some (ep, r2) => some (⟨p.1 ++ '0' :: (fp ++ ep)⟩, r2)
    else if c.isDigit then
      let ds := (c :: r).takeWhile Char.isDigit
      let r0 := (c :: r).dropWhile Char.isDigit
      match parseFracPart r0 with
      | none => none
      | some (fp, r1) =>
        match parseExpPart r1 with
        | none => none
        | some (ep, r2) => some (⟨p.1 ++ ds ++ fp ++ ep⟩, r2)
    else none

inductive PMode where
  | valM
  | arrM
  | objM

inductive PRes where
  | val (v : JsValue)
  | elems (xs : List JsValue)
  | fields (fs : List (String × JsValue))

def parseP : Nat → PMode → List Char → Option (PRes × List Char)
  | 0, _, _ => none
  | f + 1, .valM, cs =>
    match skipWs cs with
    | [] => none
    | c :: r =>
      if c = 'n' then
        match r with
        | 'u' :: 'l' :: 'l' :: r2 => some (.val .jnull, r2)
        | _ => none
      else if c = 't' then
        match r with
        | 'r' :: 'u' :: 'e' :: r2 => some (.val (.jbool true), r2)
        | _ => none
      else if c = 'f' then
        match r with
        | 'a' :: 'l' :: 's' :: 'e' :: r2 => some (.val (.jbool false), r2)
        | _ => none
      else if c = '"' then
        match parseStrAux (r.length + 1) r with
        | some (sc, r2) => some (.val (.jstr ⟨sc⟩), r2)
        | none => none
      else if c = '[' then
        match skipWs r with
        | [] => none
        | d :: r2 =>
          if d = ']' then some (.val (.jarr []), r2)
          else
            match parseP f .arrM (d :: r2) with
            | some (.elems xs, r3) => some (.val (.jarr xs), r3)
            | _ => none
      else if c = '\x7b' then
        match skipWs r with
        | [] => none
        | d :: r2 =>
          if d = '\x7d' then some (.val (.jobj []), r2)
          else
            match parseP f .objM (d :: r2) with
            | some (.fields fs, r3) => some (.val (.jobj fs), r3)
            | _ => none
      else
        match parseNum (c :: r) with
        | some (raw, r2) => some (.val (.jnum raw), r2)
        | none => none
  | f + 1, .arrM, cs =>
    match parseP f .valM cs with
    | some (.val x, r) =>
      (match skipWs r with
       | [] => none
       | d :: r2 =>
         if d = ',' then
           match parseP f .arrM r2 with
           | some (.elems xs, r3) => some (.elems (x :: xs), r3)
           | _ => none
         else if d = ']' then some (.elems [x], r2)
         else none)
    | _ => none
  | f + 1, .objM, cs =>
    match skipWs cs with
    | [] => none
    | c :: r =>
      if c = '"' then
        match parseStrAux (r.length + 1) r with
        | some (kc, r2) =>
          (match skipWs r2 with
           | [] => none
           | d :: r3 =>
             if d = ':' then
               match parseP f .valM r3 with
               | some (.val x, r4) =>
                 (match skipWs r4 with
                  | [] => none
                  | d2 :: r5 =>
                    if d2 = ',' then
                      match parseP f .objM r5 with
                      | some (.fields fs, r6) => some (.fields ((⟨kc⟩, x) :: fs), r6)
                      | _ => none
                    else if d2 = '\x7d' then some (.fields [(⟨kc⟩, x)], r5)
                    else none)
               | _ => none
             else none)
        | none => none
      else none

/-- The host `JSON.parse`; `none` models a thrown `SyntaxError`.  The fuel
`length + 8` is ample: every recursive descent consumes input. -/
def jsonParse (s : String) : Option JsValue :=
  match parseP (s.data.length + 8) .valM s.data with
  | some (.val v, r) => if (skipWs r).isEmpty then some v else none
  | _ => none

/-! ## JS field access and truthiness -/

/-- Field lookup on a parsed JSON object: with duplicate keys `JSON.parse`
keeps the last occurrence. -/
def lookupField : List (String × JsValue) → String → Option JsValue
  | [], _ => none
  | (k, v) :: r, name =>
    match lookupField r name with
    | some w => some w
    | none => if k = name then some v else none

/-- `md.name` property access; `none` models `undefined`. -/
def jfield : JsValue → String → Option JsValue
  | .jobj fs, name => lookupField fs name
  | _, _ => none

/-- Whether a JSON number's numeral denotes a nonzero value (its mantissa has
a nonzero digit). -/
def numMantissaNonzero (raw : String) : Bool :=
  (raw.data.takeWhile (fun c => !(c == 'e' || c == 'E'))).any (fun c => c.isDigit && c != '0')

/-- JS truthiness of a property that may be `undefined`. -/
def jsTruthy : Option JsValue → Bool
  | none => false
  | some .jnull => false
  | some (.jbool b) => b
  | some (.jstr s) => !(s == "")
  | some (.jnum raw) => numMantissaNonzero raw
  | some (.jarr _) => true
  | some (.jobj _) => true

def decDigits? (cs : List Char) : Option Nat :=
  if cs ≠ [] ∧ cs.all Char.isDigit then
    some (cs.foldl (fun a c => a * 10 + (c.toNat - 48)) 0)
  else none

def decNat (s : String) : Option Nat := decDigits? s.data

/-- The iteration count of `for (let i = 0; i < metadata.totalChunks; i++)`:
the value of `totalChunks` when it is a (non-negative integer) JSON number,
0 when it is absent or not a number. -/
def totalChunksOf (md : JsValue) : Nat :=
  match jfield md "totalChunks" with
  | some (.jnum raw) => (decNat raw).getD 0
  | _ => 0

/-- `validator.validate(data, metadata.checksum)`: strict equality of the
recomputed checksum with the `checksum` property (false when that property
is `undefined` or not a string). -/
def checksumOkOf (data : String) (expected : Option JsValue) : Bool :=
  match expected with
  | some (.jstr s) => checksumValidate data s
  | _ => false

/-! ## PluginData (src/PluginData.ts) -/

def metaKeyOf (key : String) : String := "__fpdu_meta_" ++ key

/-- `typeof value === 'string' ? value : JSON.stringify(value)`. -/
def serializeValue : JsValue → String
  | .jstr s => s
  | v => stringifyJson v

/-- `JSON.stringify({compressed: true, checksum, size})` rendered concretely:
the checksum is base-36 text and the size a decimal numeral, so no JSON
string escaping arises. -/
def singleMetadata (data : String) : String :=
  "\x7b\"compressed\":true,\"checksum\":\"" ++ calculateChecksum data ++ "\",\"size\":"
    ++ natToDec (blobSize data) ++ "\x7d"

/-- `JSON.stringify({compressed: true, chunked: true, totalChunks, checksum, size})`. -/
def chunkedMetadata (data : String) (n : Nat) : String :=
  "\x7b\"compressed\":true,\"chunked\":true,\"totalChunks\":" ++ natToDec n
    ++ ",\"checksum\":\"" ++ calculateChecksum data ++ "\",\"size\":"
    ++ natToDec (blobSize data) ++ "\x7d"

/-- `PluginData.storeSingle`.  Errors carry the state as mutated so far. -/
def storeSingle (nodeId key compressed data : String) (st : PDState) :
    Except (PDError × PDState) PDState :=
  let metadataStr := singleMetadata data
  let mkey := metaKeyOf key
  if MAX_ENTRY_SIZE < key.length + compressed.length then
    .error (.entryTooLarge (key.length + compressed.length) MAX_ENTRY_SIZE, st)
  else if MAX_ENTRY_SIZE < mkey.length + metadataStr.length then
    .error (.entryTooLarge (mkey.length + metadataStr.length) MAX_ENTRY_SIZE, st)
  else
    let s2 := storePut (storePut st.store key compressed) mkey metadataStr
    .ok ⟨s2, recordUsage st.ledger nodeId key (compressed.length + mkey.length + metadataStr.length)⟩

/-- The `chunks.forEach` loop of `PluginData.storeChunked`: validate then
write each chunk in index order, accumulating the usage; stops at the first
oversized chunk with the store as written so far. -/
def storeChunksGo (key : String) : List String → Nat → Store → Nat → Store × Nat × Option PDError
  | [], _, s, u => (s, u, none)
  | ch :: rest, i, s, u =>
    let ck := calculateChunkKey key i
    if MAX_ENTRY_SIZE < ck.length + ch.length then
      (s, u, some (.entryTooLarge (ck.length + ch.length) MAX_ENTRY_SIZE))
    else storeChunksGo key rest (i + 1) (storePut s ck ch) (u + ck.length + ch.length)

/-- `PluginData.storeChunked`. -/
def storeChunked (nodeId key compressed data : String) (st : PDState) :
    Except (PDError × PDState) PDState :=
  let pieces := (chunk compressed).chunks
  match storeChunksGo key pieces 0 st.store 0 with
  | (s1, _, some e) => .error (e, ⟨s1, st.ledger⟩)
  | (s1, u, none) =>
    let metadataStr := chunkedMetadata data pieces.length
    let mkey := metaKeyOf key
    if MAX_ENTRY_SIZE < mkey.length + metadataStr.length then
      .error (.entryTooLarge (mkey.length + metadataStr.length) MAX_ENTRY_SIZE, ⟨s1, st.ledger⟩)
    else
      .ok ⟨storePut s1 mkey metadataStr,
           recordUsage st.ledger nodeId key (u + mkey.length + metadataStr.length)⟩

/-- The `catch` block of `setPluginData`: `QuotaExceededError` and
`EntryTooLargeError` are rethrown, everything else becomes
`CompressionError('compress')`. -/
def normalizeSetError : Except (PDError × PDState) PDState → Except (PDError × PDState) PDState
  | .ok st => .ok st
  | .error (e, st) =>
    match e with
    | .quotaExceeded a b => .error (.quotaExceeded a b, st)
    | .entryTooLarge a b => .error (.entryTooLarge a b, st)
    | _ => .error (.compressionFailed .compressOp, st)

/-- `PluginData.setPluginData`.  On an error the returned state is the state
as mutated by the call so far (the TS objects are mutated in place). -/
def setPluginData (c : CompressorM) (nodeId : String) (st : PDState) (key : String)
    (value : JsValue) : Except (PDError × PDState) PDState :=
  if key = "" ∨ hasReservedPfx key then .error (.invalidKey key, st)
  else
    let data := serializeValue value
    if DATA_CAP < blobSize data then .error (.dataTooLarge (blobSize data), st)
    else
      normalizeSetError
        (match c.compress data with
         | none => .error (.compressionFailed .compressOp, st)
         | some compressed =>
           let estimatedSize := compressed.length + 200
           if !canStore st.ledger estimatedSize then
             .error (.quotaExceeded estimatedSize (getRemainingQuota st.ledger), st)
           else
             let st1 : PDState :=
               if 0 < getKeyUsage st.ledger nodeId key then
                 ⟨st.store, removeUsage st.ledger nodeId key⟩
               else st
             if getSafeChunkSize key < (compressed.length : Int) then
               storeChunked nodeId key compressed data st1
             else
               storeSingle nodeId key compressed data st1)

/-- `PluginData.storeSingleAsync`: the `Promise.all` wrapper resolves the two
writes in array order, so the body coincides with `storeSingle`. -/
def storeSingleAsync (nodeId key compressed data : String) (st : PDState) :
    Except (PDError × PDState) PDState :=
  storeSingle nodeId key compressed data st

/-- The `chunks.map(async ...)` + `Promise.all` of `storeChunkedAsync`: the
async callbacks run synchronously in array order; a validation failure
rejects that chunk's promise but the remaining chunks are still validated
and written, and `Promise.all` reports the first rejection. -/
def storeChunksGoAsync (key : String) :
    List String → Nat → Store → Nat → Option PDError → Store × Nat × Option PDError
  | [], _, s, u, err => (s, u, err)
  | ch :: rest, i, s, u, err =>
    let ck := calculateChunkKey key i
    if MAX_ENTRY_SIZE < ck.length + ch.length then
      storeChunksGoAsync key rest (i + 1) s u
        (match err with
         | some e => some e
         | none => some (.entryTooLarge (ck.length + ch.length) MAX_ENTRY_SIZE))
    else storeChunksGoAsync key rest (i + 1) (storePut s ck ch) (u + ck.length + ch.length) err

/-- The second `chunks.forEach` of `storeChunkedAsync`, summing the usage. -/
def chunkUsageSum (key : String) : List String → Nat → Nat
  | [], _ => 0
  | ch :: rest, i => (calculateChunkKey key i).length + ch.length + chunkUsageSum key rest (i + 1)

/-- `PluginData.storeChunkedAsync`. -/
def storeChunkedAsync (nodeId key compressed data : String) (st : PDState) :
    Except (PDError × PDState) PDState :=
  let pieces := (chunk compressed).chunks
  match storeChunksGoAsync key pieces 0 st.store 0 none with
  | (s1, _, some e) => .error (e, ⟨s1, st.ledger⟩)
  | (s1, _, none) =>
    let u := chunkUsageSum key pieces 0
    let metadataStr := chunkedMetadata data pieces.length
    let mkey := metaKeyOf key
    if MAX_ENTRY_SIZE < mkey.length + metadataStr.length then
      .error (.entryTooLarge (mkey.length + metadataStr.length) MAX_ENTRY_SIZE, ⟨s1, st.ledger⟩)
    else
      .ok ⟨storePut s1 mkey metadataStr,
           recordUsage st.ledger nodeId key (u + mkey.length + metadataStr.length)⟩

/-- `PluginData.setPluginDataAsync` (`compressAsync` runs the same fflate
gzip as `compress`, hence the shared compressor model). -/
def setPluginDataAsync (c : CompressorM) (nodeId : String) (st : PDState) (key : String)
    (value : JsValue) : Except (PDError × PDState) PDState :=
  if key = "" ∨ hasReservedPfx key then .error (.invalidKey key, st)
  else
    let data := serializeValue value
    if DATA_CAP < blobSize data then .error (.dataTooLarge (blobSize data), st)
    else
      normalizeSetError
        (match c.compress data with
         | none => .error (.compressionFailed .compressOp, st)
         | some compressed =>
           let estimatedSize := compressed.length + 200
           if !canStore st.ledger estimatedSize then
             .error (.quotaExceeded estimatedSize (getRemainingQuota st.ledger), st)
           else
             let st1 : PDState :=
               if 0 < getKeyUsage st.ledger nodeId key then
                 ⟨st.store, removeUsage st.ledger nodeId key⟩
               else st
             if getSafeChunkSize key < (compressed.length : Int) then
               storeChunkedAsync nodeId key compressed data st1
             else
               storeSingleAsync nodeId key compressed data st1)

/-- The chunk-reading loop of `retrieveChunked`: `n` chunks starting at
index `i`; a missing/empty chunk aborts. -/
def readChunksGo (store : Store) (key : String) : Nat → Nat → Option (List String)
  | 0, _ => some []
  | n + 1, i =>
    let ch := storeGet store (calculateChunkKey key i)
    if ch = "" then none
    else
      match readChunksGo store key n (i + 1) with
      | some l => some (ch :: l)
      | none => none

/-- `try { return JSON.parse(decompressed) } catch { return decompressed }`. -/
def decodeWithFallback (d : String) : JsValue :=
  match jsonParse d with
  | some v => v
  | none => .jstr d

/-- `PluginData.retrieveChunked` (before the outer normalization). -/
def retrieveChunked (c : CompressorM) (st : PDState) (key : String) (md : JsValue) :
    Except PDError JsValue :=
  match readChunksGo st.store key (totalChunksOf md) 0 with
  | none => .error (.dataCorrupted key)
  | some chunksRead =>
    match c.decompress (String.join chunksRead) with
    | none => .error (.compressionFailed .decompressOp)
    | some d =>
      if checksumOkOf d (jfield md "checksum") then .ok (decodeWithFallback d)
      else .error (.dataCorrupted key)

/-- The body of `getPluginData`'s `try` block once metadata was found. -/
def getPluginDataCore (c : CompressorM) (st : PDState) (key : String) (metadataStr : String) :
    Except PDError JsValue :=
  match jsonParse metadataStr with
  | none => .error (.dataCorrupted key)
  | some md =>
    if jsTruthy (jfield md "chunked") then retrieveChunked c st key md
    else
      match c.decompress (storeGet st.store key) with
      | none => .error (.compressionFailed .decompressOp)
      | some d =>
        if checksumOkOf d (jfield md "checksum") then .ok (decodeWithFallback d)
        else .error (.dataCorrupted key)

/-- `PluginData.getPluginData`: passthrough when unmanaged, otherwise the
`catch` normalizes every failure to `DataCorruptedError(key)`. -/
def getPluginData (c : CompressorM) (st : PDState) (key : String) : Except PDError JsValue :=
  let metadataStr := storeGet st.store (metaKeyOf key)
  if metadataStr = "" then .ok (.jstr (storeGet st.store key))
  else
    match getPluginDataCore c st key metadataStr with
    | .ok v => .ok v
    | .error _ => .error (.dataCorrupted key)

/-- The chunk-erasing loop of `deletePluginData`. -/
def eraseChunks (key : String) : Nat → Nat → Store → Store
  | 0, _, s => s
  | n + 1, i, s => eraseChunks key n (i + 1) (storePut s (calculateChunkKey key i) "")

/-- `PluginData.deletePluginData`.  Note the placement of the metadata
erasure inside the `try`: when `JSON.parse(metadataStr)` throws, the `catch`
swallows the error and neither chunks nor the metadata record are erased;
the bare record and the ledger entry are always erased.  Total: never throws. -/
def deletePluginData (nodeId : String) (st : PDState) (key : String) : PDState :=
  let metadataStr := storeGet st.store (metaKeyOf key)
  let store1 :=
    if metadataStr = "" then st.store
    else
      match jsonParse metadataStr with
      | none => st.store
      | some md =>
        let sc := if jsTruthy (jfield md "chunked") then eraseChunks key (totalChunksOf md) 0 st.store
                  else st.store
        storePut sc (metaKeyOf key) ""
  ⟨storePut store1 key "", removeUsage st.ledger nodeId key⟩

/-- `PluginData.getPluginDataKeys`: all backing-store keys outside the
reserved namespace. -/
def getPluginDataKeys (st : PDState) : List String :=
  (listKeys st.store).filter (fun k => !hasReservedPfx k)

/-- Composition used to state round-trip properties: a store followed by a
retrieve of the same key. -/
def setThenGet (c : CompressorM) (nodeId : String) (st : PDState) (key : String)
    (value : JsValue) : Except PDError JsValue :=
  match setPluginData c nodeId st key value with
  | .ok st2 => getPluginData c st2 key
  | .error (e, _) => .error e

/-! ## Store lemmas -/

theorem mem_filterKey_ne {s : Store} {k : String} {p : String × String}
    (h : p ∈ filterKey s k) : p.1 ≠ k := by
  have := List.of_mem_filter h
  simpa using this

theorem storeGet_filterKey_ne (s : Store) {k q : String} (h : q ≠ k) :
    storeGet (filterKey s k) q = storeGet s q := by
  induction s with
  | nil => rfl
  | cons p r ih =>
    obtain ⟨a, b⟩ := p
    by_cases hak : a = k
    · subst hak
      have hkq : ¬ a = q := fun hh => h (hh ▸ rfl)
      simp [filterKey, List.filter_cons, storeGet, hkq] at *
      exact ih
    · by_cases haq : a = q
      · subst haq
        simp [filterKey, List.filter_cons, storeGet, hak]
      · simp [filterKey, List.filter_cons, storeGet, hak, haq] at *
        exact ih

theorem storeGet_filterKey_self (s : Store) (k : String) : storeGet (filterKey s k) k = "" := by
  induction s with
  | nil => rfl
  | cons p r ih =>
    obtain ⟨a, b⟩ := p
    by_cases hak : a = k
    · simp [filterKey, List.filter_cons, hak] at *
      exact ih
    · simp [filterKey, List.filter_cons, storeGet, hak] at *
      exact ih

theorem filterKey_filterKey (s : Store) (k : String) :
    filterKey (filterKey s k) k = filterKey s k := by
  apply List.filter_eq_self.mpr
  intro p hp
  simpa using mem_filterKey_ne hp

theorem storeGet_append_all_ne {l m : Store} {k : String} (h : ∀ p ∈ l, p.1 ≠ k) :
    storeGet (l ++ m) k = storeGet m k := by
  induction l with
  | nil => rfl
  | cons p r ih =>
    obtain ⟨a, b⟩ := p
    have ha : a ≠ k := h (a, b) (List.mem_cons_self _ _)
    simp [storeGet, ha]
    exact ih (fun q hq => h q (List.mem_cons_of_mem _ hq))

theorem storeGet_storePut_self (s : Store) (k v : String) :
    storeGet (storePut s k v) k = v := by
  by_cases hv : v = ""
  · subst hv
    simp [storePut, storeGet_filterKey_self]
  · simp only [storePut, if_neg hv]
    rw [storeGet_append_all_ne (fun p hp => mem_filterKey_ne hp)]
    simp [storeGet]

theorem storeGet_storePut_ne (s : Store) {k q : String} (v : String) (h : q ≠ k) :
    storeGet (storePut s k v) q = storeGet s q := by
  by_cases hv : v = ""
  · subst hv
    simp [storePut, storeGet_filterKey_ne _ h]
  · simp only [storePut, if_neg hv]
    induction s with
    | nil =>
      have hkq : ¬ k = q := fun hh => h hh.symm
      simp [filterKey, storeGet, hkq]
    | cons p r ih =>
      obtain ⟨a, b⟩ := p
      by_cases hak : a = k
      · subst hak
        have : ¬ a = q := fun hh => h (hh ▸ rfl)
        simp [filterKey, List.filter_cons, storeGet, this] at *
        exact ih
      · by_cases haq : a = q
        · subst haq
          simp [filterKey, List.filter_cons, storeGet, hak]
        · simp [filterKey, List.filter_cons, storeGet, hak, haq] at *
          exact ih

theorem storeGet_filterKey_of_empty {s : Store} {q : String} (h : storeGet s q = "")
    (k : String) : storeGet (filterKey s k) q = "" := by
  by_cases hqk : q = k
  · subst hqk
    exact storeGet_filterKey_self s q
  · rw [storeGet_filterKey_ne s hqk]
    exact h

theorem storeGet_storePut_erase_of_empty {s : Store} {q : String} (h : storeGet s q = "")
    (k : String) : storeGet (storePut s k "") q = "" := by
  simp only [storePut, if_pos rfl]
  exact storeGet_filterKey_of_empty h k

/-! ## Ledger lemmas -/

theorem getKeyUsage_removeUsage_self (l : Ledger) (node key : String) :
    getKeyUsage (removeUsage l node key) node key = 0 := by
  induction l with
  | nil => rfl
  | cons e r ih =>
    obtain ⟨p, n⟩ := e
    by_cases hp : p = (node, key)
    · simp [removeUsage, List.filter_cons, hp] at *
      exact ih
    · simp [removeUsage, List.filter_cons, getKeyUsage, hp] at *
      exact ih

theorem removeUsage_removeUsage (l : Ledger) (node key : String) :
    removeUsage (removeUsage l node key) node key = removeUsage l node key := by
  apply List.filter_eq_self.mpr
  intro e he
  have := List.of_mem_filter he
  simpa using this

/-! ## Numeral lemmas -/

theorem natToDecAux_all_digit : ∀ f n, ∀ c ∈ natToDecAux f n, c.isDigit = true := by
  intro f
  induction f with
  | zero => intro n c hc; simp [natToDecAux] at hc
  | succ f ih =>
    intro n c hc
    by_cases h : n < 10
    · simp [natToDecAux, h] at hc
      subst hc
      interval_cases n <;> decide
    · simp [natToDecAux, h] at hc
      rcases hc with hc | hc
      · exact ih _ c hc
      · subst hc
        have : n % 10 < 10 := Nat.mod_lt _ (by decide)
        interval_cases hm : n % 10 <;> decide

theorem natToDecAux_ne_nil : ∀ f n, 0 < f → natToDecAux f n ≠ [] := by
  intro f n hf
  match f, hf with
  | f + 1, _ =>
    by_cases h : n < 10 <;> simp [natToDecAux, h]

theorem decValCore_natToDecAux : ∀ f n, n < f →
    (natToDecAux f n).foldl (fun a c => a * 10 + (c.toNat - 48)) 0 = n := by
  intro f
  induction f with
  | zero => intro n hn; omega
  | succ f ih =>
    intro n hn
    by_cases h : n < 10
    · have hd : (digitChar10 n).toNat = 48 + n := by interval_cases n <;> decide
      simp [natToDecAux, h, hd]
    · have hdiv : n / 10 < f := by
        have h1 : n / 10 < n := Nat.div_lt_self (by omega) (by decide)
        omega
      have hm : n % 10 < 10 := Nat.mod_lt _ (by decide)
      have hd : (digitChar10 (n % 10)).toNat = 48 + n % 10 := by
        interval_cases hx : n % 10 <;> decide
      simp [natToDecAux, h, List.foldl_append, ih _ hdiv, hd]
      omega

theorem decNat_natToDec (n : Nat) : decNat (natToDec n) = some n := by
  have hne : natToDecAux (n + 1) n ≠ [] := natToDecAux_ne_nil _ _ (Nat.succ_pos n)
  have hall : ∀ c ∈ natToDecAux (n + 1) n, c.isDigit = true := natToDecAux_all_digit _ _
  simp only [decNat, natToDec, decDigits?]
  rw [if_pos ⟨hne, List.all_eq_true.mpr hall⟩]
  exact congrArg some (decValCore_natToDecAux _ _ (Nat.lt_succ_self n))

theorem natToDec_inj {a b : Nat} (h : natToDec a = natToDec b) : a = b := by
  have := congrArg decNat h
  rw [decNat_natToDec, decNat_natToDec] at this
  exact Option.some.inj this

theorem natToDecAux_head_pos : ∀ f n, n ≠ 0 → n < f →
    ∃ d ds, natToDecAux f n = d :: ds ∧ d ≠ '0' ∧ d.isDigit = true := by
  intro f
  induction f with
  | zero => intro n h hn; omega
  | succ f ih =>
    intro n h hn
    by_cases hlt : n < 10
    · refine ⟨digitChar10 n, [], by simp [natToDecAux, hlt], ?_, ?_⟩
      · interval_cases n <;> first | omega | decide
      · interval_cases n <;> decide
    · have hdiv : n / 10 < f := by
        have h1 : n / 10 < n := Nat.div_lt_self (by omega) (by decide)
        omega
      have hne : n / 10 ≠ 0 := by omega
      obtain ⟨d, ds, heq, hd0, hdd⟩ := ih (n / 10) hne hdiv
      exact ⟨d, ds ++ [digitChar10 (n % 10)], by simp [natToDecAux, hlt, heq], hd0, hdd⟩

/-- Characters safe inside a JSON string literal without escaping. -/
def safeStrChar (c : Char) : Prop := c ≠ '"' ∧ c ≠ '\\' ∧ 32 ≤ c.toNat

theorem natTo36Aux_safe : ∀ f n, ∀ c ∈ natTo36Aux f n, safeStrChar c := by
  intro f
  induction f with
  | zero => intro n c hc; simp [natTo36Aux] at hc
  | succ f ih =>
    intro n c hc
    by_cases h : n < 36
    · simp [natTo36Aux, h] at hc
      subst hc
      interval_cases n <;> exact ⟨by decide, by decide, by decide⟩
    · simp [natTo36Aux, h] at hc
      rcases hc with hc | hc
      · exact ih _ c hc
      · subst hc
        have : n % 36 < 36 := Nat.mod_lt _ (by decide)
        interval_cases hm : n % 36 <;> exact ⟨by decide, by decide, by decide⟩

theorem isDigit_toNat_bounds {c : Char} (h : c.isDigit = true) :
    48 ≤ c.toNat ∧ c.toNat ≤ 57 := by
  simp [Char.isDigit, UInt32.le_def, BitVec.le_def] at h
  exact ⟨h.1, h.2⟩

theorem digit_safe {c : Char} (h : c.isDigit = true) : safeStrChar c := by
  obtain ⟨h1, h2⟩ := isDigit_toNat_bounds h
  refine ⟨?_, ?_, by omega⟩ <;> (intro he; subst he; simp at h1 h2)

theorem calculateChecksum_safe : ∀ c ∈ (calculateChecksum s).data, safeStrChar c := by
  intro c hc
  exact natTo36Aux_safe _ _ c hc

/-! ## Chunking lemmas -/

theorem chunkCore_nil : ∀ f, chunkCore f [] = [] := by
  intro f
  cases f <;> rfl

theorem chunkCore_flatten : ∀ f (cs : List Char), cs.length ≤ f →
    (chunkCore f cs).flatten = cs := by
  intro f
  induction f with
  | zero =>
    intro cs h
    have : cs = [] := List.eq_nil_of_length_eq_zero (Nat.le_zero.mp h)
    subst this
    rfl
  | succ f ih =>
    intro cs h
    match cs with
    | [] => rfl
    | c :: r =>
      have hdrop : ((c :: r).drop CHUNK_SIZE).length ≤ f := by
        rw [List.length_drop]
        have : (c :: r).length ≤ f + 1 := h
        have hc : 1 ≤ CHUNK_SIZE := by decide
        omega
      simp only [chunkCore, List.flatten_cons]
      rw [ih _ hdrop]
      exact List.take_append_drop _ _

theorem chunkCore_mem_ne_nil : ∀ f (cs : List Char), ∀ l ∈ chunkCore f cs, l ≠ [] := by
  intro f
  induction f with
  | zero => intro cs l hl; simp [chunkCore] at hl
  | succ f ih =>
    intro cs l hl
    match cs with
    | [] => simp [chunkCore] at hl
    | c :: r =>
      simp only [chunkCore] at hl
      rcases List.mem_cons.mp hl with hl | hl
      · subst hl
        simp [List.take_cons]
        intro hfalse
        exact absurd hfalse (by simp [CHUNK_SIZE])
      · exact ih _ l hl

theorem chunkCore_mem_length_le : ∀ f (cs : List Char), ∀ l ∈ chunkCore f cs,
    l.length ≤ CHUNK_SIZE := by
  intro f
  induction f with
  | zero => intro cs l hl; simp [chunkCore] at hl
  | succ f ih =>
    intro cs l hl
    match cs with
    | [] => simp [chunkCore] at hl
    | c :: r =>
      simp only [chunkCore] at hl
      rcases List.mem_cons.mp hl with hl | hl
      · subst hl
        simp [List.length_take]
      · exact ih _ l hl

theorem chunkCore_get_length : ∀ f (cs : List Char), cs.length ≤ f →
    ∀ i (h : i + 1 < (chunkCore f cs).length),
      ((chunkCore f cs).get ⟨i, Nat.lt_of_succ_lt h⟩).length = CHUNK_SIZE := by
  intro f
  induction f with
  | zero =>
    intro cs hlen i h
    have : cs = [] := List.eq_nil_of_length_eq_zero (Nat.le_zero.mp hlen)
    subst this
    simp [chunkCore] at h
  | succ f ih =>
    intro cs hlen i h
    match cs with
    | [] => simp [chunkCore] at h
    | c :: r =>
      have hdrop : ((c :: r).drop CHUNK_SIZE).length ≤ f := by
        rw [List.length_drop]
        have : (c :: r).length ≤ f + 1 := hlen
        have hc : 1 ≤ CHUNK_SIZE := by decide
        omega
      match i with
      | 0 =>
        have h' : 1 < (chunkCore (f + 1) (c :: r)).length := h
        simp only [chunkCore, List.length_cons] at h'
        have hrest : 0 < (chunkCore f ((c :: r).drop CHUNK_SIZE)).length := by omega
        have hdne : (c :: r).drop CHUNK_SIZE ≠ [] := by
          intro hd
          rw [hd, chunkCore_nil] at hrest
          exact absurd hrest (by simp)
        have hlong : CHUNK_SIZE < (c :: r).length := by
          by_contra hcon
          exact hdne (List.drop_eq_nil_of_le (Nat.le_of_not_lt hcon))
        show (List.take CHUNK_SIZE (c :: r)).length = CHUNK_SIZE
        rw [List.length_take]
        omega
      | i + 1 =>
        have h' : i + 1 + 1 < (chunkCore (f + 1) (c :: r)).length := h
        simp only [chunkCore, List.length_cons] at h'
        exact ih _ hdrop i (by omega)

theorem mkStr_append (a b : List Char) :
    (⟨a⟩ : String) ++ (⟨b⟩ : String) = (⟨a ++ b⟩ : String) := rfl

theorem join_map_mkStr_aux : ∀ (ls : List (List Char)) (a : List Char),
    List.foldl (· ++ ·) (⟨a⟩ : String) (ls.map (fun l => (⟨l⟩ : String))) = ⟨a ++ ls.flatten⟩ := by
  intro ls
  induction ls with
  | nil => intro a; simp
  | cons l r ih =>
    intro a
    simp only [List.map_cons, List.foldl_cons, List.flatten_cons]
    rw [mkStr_append, ih]
    simp

theorem join_map_mkStr (ls : List (List Char)) :
    String.join (ls.map (fun l => (⟨l⟩ : String))) = ⟨ls.flatten⟩ := by
  have := join_map_mkStr_aux ls []
  simpa [String.join] using this

/-! ## Parser lemmas -/

theorem skipWs_cons_nonws {c : Char} (h : isWsChar c = false) (r : List Char) :
    skipWs (c :: r) = c :: r := by
  simp [skipWs, h]

theorem parseStrAux_safe : ∀ {sc : List Char} (F : Nat) (r : List Char), sc.length < F →
    (∀ c ∈ sc, safeStrChar c) → parseStrAux F (sc ++ '"' :: r) = some (sc, r) := by
  intro sc
  induction sc with
  | nil =>
    intro F r hF _
    cases F with
    | zero => omega
    | succ F => rfl
  | cons c cs ih =>
    intro F r hF h
    obtain ⟨h1, h2, h3⟩ := h c (List.mem_cons_self _ _)
    cases F with
    | zero => omega
    | succ F =>
      have ih' : parseStrAux F (cs ++ '"' :: r) = some (cs, r) :=
        ih F r (by simp at hF; omega) (fun x hx => h x (List.mem_cons_of_mem _ hx))
      have hlt : ¬ c.toNat < 32 := by omega
      simp [parseStrAux, h1, h2, hlt, ih']

theorem takeWhile_digits_append {ds : List Char} {x : Char} (hds : ∀ c ∈ ds, c.isDigit = true)
    (hx : x.isDigit = false) (rest : List Char) :
    (ds ++ x :: rest).takeWhile Char.isDigit = ds := by
  induction ds with
  | nil => simp [List.takeWhile, hx]
  | cons c cs ih =>
    have hc := hds c (List.mem_cons_self _ _)
    simp [List.takeWhile_cons, hc, ih (fun y hy => hds y (List.mem_cons_of_mem _ hy))]

theorem dropWhile_digits_append {ds : List Char} {x : Char} (hds : ∀ c ∈ ds, c.isDigit = true)
    (hx : x.isDigit = false) (rest : List Char) :
    (ds ++ x :: rest).dropWhile Char.isDigit = x :: rest := by
  induction ds with
  | nil => simp [List.dropWhile, hx]
  | cons c cs ih =>
    have hc := hds c (List.mem_cons_self _ _)
    simp only [List.cons_append, List.dropWhile_cons, hc]
    exact ih (fun y hy => hds y (List.mem_cons_of_mem _ hy))

/-- Facts letting the value dispatch fall through to the number branch when
the head character is a decimal digit. -/
theorem digit_dispatch {c : Char} (h : c.isDigit = true) :
    isWsChar c = false ∧ c ≠ 'n' ∧ c ≠ 't' ∧ c ≠ 'f' ∧ c ≠ '"' ∧ c ≠ '[' ∧ c ≠ '\x7b'
      ∧ c ≠ '-' := by
  obtain ⟨h1, h2⟩ := isDigit_toNat_bounds h
  refine ⟨?_, ?_, ?_, ?_, ?_, ?_, ?_, ?_⟩
  · simp only [isWsChar]
    have hsp : ¬ c = ' ' := fun he => by subst he; simp at h1 h2
    have hta : ¬ c = '\t' := fun he => by subst he; simp at h1 h2
    have hnl : ¬ c = '\n' := fun he => by subst he; simp at h1 h2
    have hcr : ¬ c = '\r' := fun he => by subst he; simp at h1 h2
    simp [hsp, hta, hnl, hcr]
  all_goals intro he; subst he; simp at h1 h2

/-- Terminator characters after a numeral: not a digit and not a character
that could extend the number. -/
def numTermChar (x : Char) : Prop :=
  x.isDigit = false ∧ x ≠ '.' ∧ x ≠ 'e' ∧ x ≠ 'E'

theorem parseFracPart_term {x : Char} (h : numTermChar x) (rest : List Char) :
    parseFracPart (x :: rest) = some ([], x :: rest) := by
  simp [parseFracPart, h.2.1]

theorem parseExpPart_term {x : Char} (h : numTermChar x) (rest : List Char) :
    parseExpPart (x :: rest) = some ([], x :: rest) := by
  have : ¬ (x = 'e' ∨ x = 'E') := by
    rintro (he | he) <;> [exact h.2.2.1 he; exact h.2.2.2 he]
  simp [parseExpPart, this]

theorem parseNum_natToDec (n : Nat) {x : Char} (hx : numTermChar x) (rest : List Char) :
    parseNum ((natToDec n).data ++ x :: rest) = some (natToDec n, x :: rest) := by
  have hall : ∀ c ∈ natToDecAux (n + 1) n, c.isDigit = true := natToDecAux_all_digit _ _
  by_cases hn : n = 0
  · subst hn
    have h0 : (natToDec 0).data = ['0'] := rfl
    rw [h0]
    simp [parseNum, parseFracPart_term hx, parseExpPart_term hx]
    rfl
  · obtain ⟨d, ds, heq, hd0, hdd⟩ := natToDecAux_head_pos (n + 1) n hn (Nat.lt_succ_self n)
    have hdata : (natToDec n).data = d :: ds := by simp [natToDec, heq]
    have hdsdig : ∀ c ∈ ds, c.isDigit = true := by
      intro c hc
      exact hall c (by rw [heq]; exact List.mem_cons_of_mem _ hc)
    obtain ⟨hw, hn', ht', hf', hq', hb', hbr', hm'⟩ := digit_dispatch hdd
    have htake : (d :: (ds ++ x :: rest)).takeWhile Char.isDigit = d :: ds := by
      have := @takeWhile_digits_append (d :: ds) x
        (fun c hc => by
          rcases List.mem_cons.mp hc with h | h
          · subst h; exact hdd
          · exact hdsdig c h)
        hx.1 rest
      simpa using this
    have hdrop : (d :: (ds ++ x :: rest)).dropWhile Char.isDigit = x :: rest := by
      have := @dropWhile_digits_append (d :: ds) x
        (fun c hc => by
          rcases List.mem_cons.mp hc with h | h
          · subst h; exact hdd
          · exact hdsdig c h)
        hx.1 rest
      simpa using this
    rw [hdata]
    simp [parseNum, hm', hd0, hdd, htake, hdrop, parseFracPart_term hx, parseExpPart_term hx,
      natToDec, heq]

theorem parseP_true (f : Nat) (r : List Char) :
    parseP (f + 1) .valM ('t' :: 'r' :: 'u' :: 'e' :: r) = some (.val (.jbool true), r) := rfl

theorem parseP_strVal (f : Nat) (sc : List Char) (r : List Char) (h : ∀ c ∈ sc, safeStrChar c) :
    parseP (f + 1) .valM ('"' :: (sc ++ '"' :: r)) = some (.val (.jstr ⟨sc⟩), r) := by
  have hps : parseStrAux ((sc ++ '"' :: r).length + 1) (sc ++ '"' :: r) = some (sc, r) :=
    parseStrAux_safe _ _ (by simp only [List.length_append, List.length_cons]; omega) h
  simp only [List.length_append, List.length_cons] at hps
  simp [parseP, skipWs_cons_nonws (by decide : isWsChar '"' = false), hps]

theorem parseP_numVal (f n : Nat) {x : Char} (hx : numTermChar x) (rest : List Char) :
    parseP (f + 1) .valM ((natToDec n).data ++ x :: rest)
      = some (.val (.jnum (natToDec n)), x :: rest) := by
  have hpn := parseNum_natToDec n hx rest
  have hne : natToDecAux (n + 1) n ≠ [] := natToDecAux_ne_nil _ _ (Nat.succ_pos n)
  obtain ⟨d, ds, heq⟩ : ∃ d ds, (natToDec n).data = d :: ds := by
    cases hh : (natToDec n).data with
    | nil => exact absurd hh (by simpa [natToDec] using hne)
    | cons d ds => exact ⟨d, ds, rfl⟩
  have hdd : d.isDigit = true := by
    apply natToDecAux_all_digit (n + 1) n
    have : d ∈ (natToDec n).data := by rw [heq]; exact List.mem_cons_self _ _
    simpa [natToDec] using this
  obtain ⟨hw, hn', ht', hf', hq', hb', hbr', _⟩ := digit_dispatch hdd
  rw [heq] at hpn ⊢
  simp only [List.cons_append] at hpn ⊢
  simp [parseP, skipWs_cons_nonws hw, hn', ht', hf', hq', hb', hbr', hpn]

instance (c : Char) : Decidable (safeStrChar c) := by
  unfold safeStrChar
  infer_instance

theorem parseP_objVal (f : Nat) (d : Char) (cs2 : List Char) (hw : isWsChar d = false)
    (hd : d ≠ '\x7d') {fs : List (String × JsValue)}
    {r : List Char} (hobj : parseP f .objM (d :: cs2) = some (.fields fs, r)) :
    parseP (f + 1) .valM ('\x7b' :: d :: cs2) = some (.val (.jobj fs), r) := by
  simp [parseP, skipWs_cons_nonws (by decide : isWsChar '\x7b' = false),
    skipWs_cons_nonws hw, hd, hobj]

theorem parseP_obj_cons (f : Nat) {nameC : List Char} (hsafe : ∀ c ∈ nameC, safeStrChar c)
    {cs : List Char} {x : JsValue} {r4 : List Char}
    (hval : parseP f .valM cs = some (.val x, r4))
    {cs2 : List Char} (hsk : skipWs r4 = ',' :: cs2)
    {fs : List (String × JsValue)} {r : List Char}
    (hrec : parseP f .objM cs2 = some (.fields fs, r)) :
    parseP (f + 1) .objM ('"' :: (nameC ++ '"' :: ':' :: cs))
      = some (.fields ((⟨nameC⟩, x) :: fs), r) := by
  have hps : parseStrAux ((nameC ++ '"' :: ':' :: cs).length + 1) (nameC ++ '"' :: ':' :: cs)
      = some (nameC, ':' :: cs) :=
    parseStrAux_safe _ _ (by simp only [List.length_append, List.length_cons]; omega) hsafe
  simp only [List.length_append, List.length_cons] at hps
  simp [parseP, skipWs_cons_nonws (by decide : isWsChar '"' = false), hps,
    skipWs_cons_nonws (by decide : isWsChar ':' = false), hval, hsk, hrec]

theorem parseP_obj_last (f : Nat) {nameC : List Char} (hsafe : ∀ c ∈ nameC, safeStrChar c)
    {cs : List Char} {x : JsValue} {r4 : List Char}
    (hval : parseP f .valM cs = some (.val x, r4))
    {r : List Char} (hsk : skipWs r4 = '\x7d' :: r) :
    parseP (f + 1) .objM ('"' :: (nameC ++ '"' :: ':' :: cs))
      = some (.fields [(⟨nameC⟩, x)], r) := by
  have hps : parseStrAux ((nameC ++ '"' :: ':' :: cs).length + 1) (nameC ++ '"' :: ':' :: cs)
      = some (nameC, ':' :: cs) :=
    parseStrAux_safe _ _ (by simp only [List.length_append, List.length_cons]; omega) hsafe
  simp only [List.length_append, List.length_cons] at hps
  simp [parseP, skipWs_cons_nonws (by decide : isWsChar '"' = false), hps,
    skipWs_cons_nonws (by decide : isWsChar ':' = false), hval, hsk]

/-! ## Parsing the metadata records written by the store path -/

/-- The value `JSON.parse` recovers from `singleMetadata`. -/
def mdSingleVal (data : String) : JsValue :=
  .jobj [("compressed", .jbool true), ("checksum", .jstr (calculateChecksum data)),
         ("size", .jnum (natToDec (blobSize data)))]

/-- The value `JSON.parse` recovers from `chunkedMetadata`. -/
def mdChunkedVal (data : String) (n : Nat) : JsValue :=
  .jobj [("compressed", .jbool true), ("chunked", .jbool true),
         ("totalChunks", .jnum (natToDec n)),
         ("checksum", .jstr (calculateChecksum data)),
         ("size", .jnum (natToDec (blobSize data)))]

def metaSizeTail (data : String) : List Char := (natToDec (blobSize data)).data ++ ['\x7d']

def metaSizeField (data : String) : List Char :=
  '"' :: (['s', 'i', 'z', 'e'] ++ '"' :: ':' :: metaSizeTail data)

def metaCksField (data : String) : List Char :=
  '"' :: (['c', 'h', 'e', 'c', 'k', 's', 'u', 'm'] ++ '"' :: ':' :: '"' ::
    ((calculateChecksum data).data ++ '"' :: ',' :: metaSizeField data))

theorem parseP_sizeField (data : String) (f : Nat) :
    parseP (f + 2) .objM (metaSizeField data)
      = some (.fields [("size", .jnum (natToDec (blobSize data)))], []) := by
  have hv : parseP (f + 1) .valM ((natToDec (blobSize data)).data ++ '\x7d' :: [])
      = some (.val (.jnum (natToDec (blobSize data))), '\x7d' :: []) :=
    parseP_numVal f (blobSize data) (by refine ⟨by decide, by decide, by decide, by decide⟩) []
  exact parseP_obj_last (f + 1) (by decide) hv rfl

theorem parseP_cksField (data : String) (f : Nat) :
    parseP (f + 3) .objM (metaCksField data)
      = some (.fields [("checksum", .jstr (calculateChecksum data)),
                       ("size", .jnum (natToDec (blobSize data)))], []) := by
  have hv : parseP (f + 2) .valM
      ('"' :: ((calculateChecksum data).data ++ '"' :: ',' :: metaSizeField data))
      = some (.val (.jstr (calculateChecksum data)), ',' :: metaSizeField data) :=
    parseP_strVal (f + 1) (calculateChecksum data).data (',' :: metaSizeField data)
      calculateChecksum_safe
  exact parseP_obj_cons (f + 2) (by decide) hv rfl (parseP_sizeField data f)

theorem parseP_singleMeta (data : String) (f : Nat) :
    parseP (f + 5) .valM (singleMetadata data).data = some (.val (mdSingleVal data), []) := by
  have hform : (singleMetadata data).data
      = '\x7b' :: '"' :: (['c', 'o', 'm', 'p', 'r', 'e', 's', 's', 'e', 'd']
          ++ '"' :: ':' :: 't' :: 'r' :: 'u' :: 'e' :: ',' :: metaCksField data) := by
    have hpre : ("\x7b\"compressed\":true,\"checksum\":\"" : String).data
        = ['\x7b', '"', 'c', 'o', 'm', 'p', 'r', 'e', 's', 's', 'e', 'd', '"', ':',
           't', 'r', 'u', 'e', ',', '"', 'c', 'h', 'e', 'c', 'k', 's', 'u', 'm', '"', ':', '"'] :=
      rfl
    have hmid : ("\",\"size\":" : String).data = ['"', ',', '"', 's', 'i', 'z', 'e', '"', ':'] :=
      rfl
    have hpost : ("\x7d" : String).data = ['\x7d'] := rfl
    simp [singleMetadata, String.data_append, hpre, hmid, hpost, metaCksField, metaSizeField,
      metaSizeTail]
  have hv1 : parseP (f + 3) .valM ('t' :: 'r' :: 'u' :: 'e' :: ',' :: metaCksField data)
      = some (.val (.jbool true), ',' :: metaCksField data) := parseP_true (f + 2) _
  have h1 : parseP (f + 4) .objM ('"' :: (['c', 'o', 'm', 'p', 'r', 'e', 's', 's', 'e', 'd']
        ++ '"' :: ':' :: 't' :: 'r' :: 'u' :: 'e' :: ',' :: metaCksField data))
      = some (.fields [("compressed", .jbool true),
                       ("checksum", .jstr (calculateChecksum data)),
                       ("size", .jnum (natToDec (blobSize data)))], []) :=
    parseP_obj_cons (f + 3) (by decide) hv1 rfl (parseP_cksField data f)
  rw [hform]
  exact parseP_objVal (f + 4) '"' _ (by decide) (by decide) h1

theorem jsonParse_singleMetadata (data : String) :
    jsonParse (singleMetadata data) = some (mdSingleVal data) := by
  have h := parseP_singleMeta data ((singleMetadata data).data.length + 3)
  simp only [jsonParse]
  rw [show (singleMetadata data).data.length + 8
      = (singleMetadata data).data.length + 3 + 5 from rfl]
  rw [h]
  rfl

theorem parseP_chunkedMeta (data : String) (n : Nat) (f : Nat) :
    parseP (f + 7) .valM (chunkedMetadata data n).data
      = some (.val (mdChunkedVal data n), []) := by
  have hform : (chunkedMetadata data n).data
      = '\x7b' :: '"' :: (['c', 'o', 'm', 'p', 'r', 'e', 's', 's', 'e', 'd']
          ++ '"' :: ':' :: 't' :: 'r' :: 'u' :: 'e' :: ',' ::
        '"' :: (['c', 'h', 'u', 'n', 'k', 'e', 'd']
          ++ '"' :: ':' :: 't' :: 'r' :: 'u' :: 'e' :: ',' ::
        '"' :: (['t', 'o', 't', 'a', 'l', 'C', 'h', 'u', 'n', 'k', 's']
          ++ '"' :: ':' :: ((natToDec n).data ++ ',' :: metaCksField data)))) := by
    have hpre : ("\x7b\"compressed\":true,\"chunked\":true,\"totalChunks\":" : String).data
        = ['\x7b', '"', 'c', 'o', 'm', 'p', 'r', 'e', 's', 's', 'e', 'd', '"', ':',
           't', 'r', 'u', 'e', ',', '"', 'c', 'h', 'u', 'n', 'k', 'e', 'd', '"', ':',
           't', 'r', 'u', 'e', ',', '"', 't', 'o', 't', 'a', 'l', 'C', 'h', 'u', 'n',
           'k', 's', '"', ':'] := rfl
    have hmida : (",\"checksum\":\"" : String).data
        = [',', '"', 'c', 'h', 'e', 'c', 'k', 's', 'u', 'm', '"', ':', '"'] := rfl
    have hmidb : ("\",\"size\":" : String).data
        = ['"', ',', '"', 's', 'i', 'z', 'e', '"', ':'] := rfl
    have hpost : ("\x7d" : String).data = ['\x7d'] := rfl
    simp [chunkedMetadata, String.data_append, hpre, hmida, hmidb, hpost, metaCksField,
      metaSizeField, metaSizeTail]
  have hv3 : parseP (f + 3) .valM ((natToDec n).data ++ ',' :: metaCksField data)
      = some (.val (.jnum (natToDec n)), ',' :: metaCksField data) :=
    parseP_numVal (f + 2) n (by refine ⟨by decide, by decide, by decide, by decide⟩) _
  have h3 : parseP (f + 4) .objM ('"' :: (['t', 'o', 't', 'a', 'l', 'C', 'h', 'u', 'n', 'k', 's']
        ++ '"' :: ':' :: ((natToDec n).data ++ ',' :: metaCksField data)))
      = some (.fields [("totalChunks", .jnum (natToDec n)),
                       ("checksum", .jstr (calculateChecksum data)),
                       ("size", .jnum (natToDec (blobSize data)))], []) :=
    parseP_obj_cons (f + 3) (by decide) hv3 rfl (parseP_cksField data f)
  have hv2 : parseP (f + 4) .valM ('t' :: 'r' :: 'u' :: 'e' :: ',' ::
        '"' :: (['t', 'o', 't', 'a', 'l', 'C', 'h', 'u', 'n', 'k', 's']
          ++ '"' :: ':' :: ((natToDec n).data ++ ',' :: metaCksField data)))
      = some (.val (.jbool true), ',' ::
        '"' :: (['t', 'o', 't', 'a', 'l', 'C', 'h', 'u', 'n', 'k', 's']
          ++ '"' :: ':' :: ((natToDec n).data ++ ',' :: metaCksField data))) :=
    parseP_true (f + 3) _
  have h2 : parseP (f + 5) .objM ('"' :: (['c', 'h', 'u', 'n', 'k', 'e', 'd']
        ++ '"' :: ':' :: 't' :: 'r' :: 'u' :: 'e' :: ',' ::
        '"' :: (['t', 'o', 't', 'a', 'l', 'C', 'h', 'u', 'n', 'k', 's']
          ++ '"' :: ':' :: ((natToDec n).data ++ ',' :: metaCksField data))))
      = some (.fields [("chunked", .jbool true),
                       ("totalChunks", .jnum (natToDec n)),
                       ("checksum", .jstr (calculateChecksum data)),
                       ("size", .jnum (natToDec (blobSize data)))], []) :=
    parseP_obj_cons (f + 4) (by decide) hv2 rfl h3
  have hv1 : parseP (f + 5) .valM ('t' :: 'r' :: 'u' :: 'e' :: ',' ::
        '"' :: (['c', 'h', 'u', 'n', 'k', 'e', 'd']
          ++ '"' :: ':' :: 't' :: 'r' :: 'u' :: 'e' :: ',' ::
        '"' :: (['t', 'o', 't', 'a', 'l', 'C', 'h', 'u', 'n', 'k', 's']
          ++ '"' :: ':' :: ((natToDec n).data ++ ',' :: metaCksField data))))
      = some (.val (.jbool true), ',' ::
        '"' :: (['c', 'h', 'u', 'n', 'k', 'e', 'd']
          ++ '"' :: ':' :: 't' :: 'r' :: 'u' :: 'e' :: ',' ::
        '"' :: (['t', 'o', 't', 'a', 'l', 'C', 'h', 'u', 'n', 'k', 's']
          ++ '"' :: ':' :: ((natToDec n).data ++ ',' :: metaCksField data)))) :=
    parseP_true (f + 4) _
  have h1 : parseP (f + 6) .objM ('"' :: (['c', 'o', 'm', 'p', 'r', 'e', 's', 's', 'e', 'd']
        ++ '"' :: ':' :: 't' :: 'r' :: 'u' :: 'e' :: ',' ::
        '"' :: (['c', 'h', 'u', 'n', 'k', 'e', 'd']
          ++ '"' :: ':' :: 't' :: 'r' :: 'u' :: 'e' :: ',' ::
        '"' :: (['t', 'o', 't', 'a', 'l', 'C', 'h', 'u', 'n', 'k', 's']
          ++ '"' :: ':' :: ((natToDec n).data ++ ',' :: metaCksField data)))))
      = some (.fields [("compressed", .jbool true),
                       ("chunked", .jbool true),
                       ("totalChunks", .jnum (natToDec n)),
                       ("checksum", .jstr (calculateChecksum data)),
                       ("size", .jnum (natToDec (blobSize data)))], []) :=
    parseP_obj_cons (f + 5) (by decide) hv1 rfl h2
  rw [hform]
  exact parseP_objVal (f + 6) '"' _ (by decide) (by decide) h1

theorem jsonParse_chunkedMetadata (data : String) (n : Nat) :
    jsonParse (chunkedMetadata data n) = some (mdChunkedVal data n) := by
  have h := parseP_chunkedMeta data n ((chunkedMetadata data n).data.length + 1)
  simp only [jsonParse]
  rw [show (chunkedMetadata data n).data.length + 8
      = (chunkedMetadata data n).data.length + 1 + 7 from rfl]
  rw [h]
  rfl

/-! ## Derived-key facts -/

theorem hasReservedPfx_metaKey (k : String) : hasReservedPfx (metaKeyOf k) = true := rfl

theorem hasReservedPfx_chunkKey (k : String) (i : Nat) :
    hasReservedPfx (calculateChunkKey k i) = true := rfl

theorem key_ne_metaKey {key : String} (hk : hasReservedPfx key = false) (q : String) :
    key ≠ metaKeyOf q := by
  intro he
  rw [he, hasReservedPfx_metaKey] at hk
  cases hk

theorem key_ne_chunkKey {key : String} (hk : hasReservedPfx key = false) (q : String) (i : Nat) :
    key ≠ calculateChunkKey q i := by
  intro he
  rw [he, hasReservedPfx_chunkKey] at hk
  cases hk

theorem metaKey_data (a : String) : (metaKeyOf a).data
    = '_' :: '_' :: 'f' :: 'p' :: 'd' :: 'u' :: '_' :: 'm' :: 'e' :: 't' :: 'a' :: '_' :: a.data :=
  rfl

theorem chunkKey_data (b : String) (i : Nat) : (calculateChunkKey b i).data
    = '_' :: '_' :: 'f' :: 'p' :: 'd' :: 'u' :: '_' :: 'c' :: 'h' :: 'u' :: 'n' :: 'k' :: '_' ::
      ((b.data ++ ['_']) ++ (natToDec i).data) := rfl

theorem metaKey_ne_chunkKey (a b : String) (i : Nat) :
    metaKeyOf a ≠ calculateChunkKey b i := by
  intro h
  have hd := congrArg String.data h
  rw [metaKey_data, chunkKey_data] at hd
  simp at hd

theorem metaKey_ne_key {key : String} (hk : hasReservedPfx key = false) (q : String) :
    metaKeyOf q ≠ key := fun he => key_ne_metaKey hk q he.symm

theorem chunkKey_ne_key {key : String} (hk : hasReservedPfx key = false) (q : String) (i : Nat) :
    calculateChunkKey q i ≠ key := fun he => key_ne_chunkKey hk q i he.symm

theorem chunkKey_ne_metaKey (a b : String) (i : Nat) :
    calculateChunkKey b i ≠ metaKeyOf a := fun he => metaKey_ne_chunkKey a b i he.symm

theorem metaKey_length (a : String) : (metaKeyOf a).length = 12 + a.length := by
  show ("__fpdu_meta_" ++ a).length = 12 + a.length
  rw [String.length_append]
  rw [show ("__fpdu_meta_" : String).length = 12 from rfl]

theorem metaKey_ne_self (a : String) : metaKeyOf a ≠ a := by
  intro h
  have := congrArg String.length h
  rw [metaKey_length] at this
  omega

theorem chunkKey_inj {k : String} {i j : Nat}
    (h : calculateChunkKey k i = calculateChunkKey k j) : i = j := by
  have hd := congrArg String.data h
  rw [chunkKey_data, chunkKey_data] at hd
  simp only [List.cons.injEq, true_and] at hd
  have hdd := List.append_cancel_left hd
  have : natToDec i = natToDec j := by
    cases hni : natToDec i with
    | mk di =>
      cases hnj : natToDec j with
      | mk dj =>
        rw [hni, hnj] at hdd
        simpa using congrArg String.mk hdd
  exact natToDec_inj this

/-! ## Field lookups on the metadata values -/

theorem jfield_mdSingle_chunked (data : String) :
    jfield (mdSingleVal data) "chunked" = none := rfl

theorem jfield_mdSingle_checksum (data : String) :
    jfield (mdSingleVal data) "checksum" = some (.jstr (calculateChecksum data)) := rfl

theorem jfield_mdChunked_chunked (data : String) (n : Nat) :
    jfield (mdChunkedVal data n) "chunked" = some (.jbool true) := rfl

theorem jfield_mdChunked_checksum (data : String) (n : Nat) :
    jfield (mdChunkedVal data n) "checksum" = some (.jstr (calculateChecksum data)) := rfl

theorem totalChunksOf_mdChunked (data : String) (n : Nat) :
    totalChunksOf (mdChunkedVal data n) = n := by
  show (decNat (natToDec n)).getD 0 = n
  rw [decNat_natToDec]
  rfl

theorem checksumOkOf_self (data : String) :
    checksumOkOf data (some (.jstr (calculateChecksum data))) = true := by
  simp [checksumOkOf, checksumValidate]

theorem singleMetadata_ne_empty (data : String) : singleMetadata data ≠ "" := by
  intro h
  have hlen := congrArg String.length h
  simp [singleMetadata, String.length_append] at hlen
  exact absurd hlen.2 (by decide)

theorem chunkedMetadata_ne_empty (data : String) (n : Nat) : chunkedMetadata data n ≠ "" := by
  intro h
  have hlen := congrArg String.length h
  simp [chunkedMetadata, String.length_append] at hlen
  exact absurd hlen.2 (by decide)

/-! ## Chunk write-loop lemmas -/

theorem storeChunksGo_preserve {key : String} : ∀ (l : List String) (i : Nat) (s : Store) (u : Nat)
    {s' : Store} {u' : Nat}, storeChunksGo key l i s u = (s', u', none) →
    ∀ q : String, (∀ j, i ≤ j → q ≠ calculateChunkKey key j) →
    storeGet s' q = storeGet s q := by
  intro l
  induction l with
  | nil =>
    intro i s u s' u' hgo q _
    simp only [storeChunksGo, Prod.mk.injEq] at hgo
    rw [← hgo.1]
  | cons ch rest ih =>
    intro i s u s' u' hgo q hq
    simp only [storeChunksGo] at hgo
    by_cases hsz : MAX_ENTRY_SIZE < (calculateChunkKey key i).length + ch.length
    · rw [if_pos hsz] at hgo
      exact absurd hgo (by simp)
    · rw [if_neg hsz] at hgo
      have := ih (i + 1) _ _ hgo q (fun j hj => hq j (by omega))
      rw [this, storeGet_storePut_ne _ _ (hq i (le_refl i))]

theorem storeChunksGo_get {key : String} : ∀ (l : List String) (i : Nat) (s : Store) (u : Nat)
    {s' : Store} {u' : Nat}, storeChunksGo key l i s u = (s', u', none) →
    ∀ (t : Nat) (ht : t < l.length),
    storeGet s' (calculateChunkKey key (i + t)) = l.get ⟨t, ht⟩ := by
  intro l
  induction l with
  | nil =>
    intro i s u s' u' _ t ht
    simp at ht
  | cons ch rest ih =>
    intro i s u s' u' hgo t ht
    simp only [storeChunksGo] at hgo
    by_cases hsz : MAX_ENTRY_SIZE < (calculateChunkKey key i).length + ch.length
    · rw [if_pos hsz] at hgo
      exact absurd hgo (by simp)
    · rw [if_neg hsz] at hgo
      match t with
      | 0 =>
        have hpres := storeChunksGo_preserve rest (i + 1) _ _ hgo (calculateChunkKey key i)
          (fun j hj he => by have := chunkKey_inj he; omega)
        rw [show i + 0 = i from rfl, hpres, storeGet_storePut_self]
        rfl
      | t + 1 =>
        have := ih (i + 1) _ _ hgo t (by simp at ht; omega)
        rw [show i + (t + 1) = (i + 1) + t by omega]
        exact this

theorem goAsync_err_stays {key : String} : ∀ (l : List String) (i : Nat) (s : Store) (u : Nat)
    (e : PDError), (storeChunksGoAsync key l i s u (some e)).2.2 = some e := by
  intro l
  induction l with
  | nil => intro i s u e; rfl
  | cons ch rest ih =>
    intro i s u e
    simp only [storeChunksGoAsync]
    by_cases hsz : MAX_ENTRY_SIZE < (calculateChunkKey key i).length + ch.length
    · rw [if_pos hsz]
      exact ih _ _ _ _
    · rw [if_neg hsz]
      exact ih _ _ _ _

theorem goAsync_of_go_none {key : String} : ∀ (l : List String) (i : Nat) (s : Store) (u : Nat),
    (storeChunksGo key l i s u).2.2 = none →
    storeChunksGoAsync key l i s u none = storeChunksGo key l i s u := by
  intro l
  induction l with
  | nil => intro i s u _; rfl
  | cons ch rest ih =>
    intro i s u h
    simp only [storeChunksGo] at h ⊢
    simp only [storeChunksGoAsync]
    by_cases hsz : MAX_ENTRY_SIZE < (calculateChunkKey key i).length + ch.length
    · rw [if_pos hsz] at h
      simp at h
    · rw [if_neg hsz] at h ⊢
      rw [if_neg hsz]
      exact ih _ _ _ h

theorem goAsync_of_go_err {key : String} : ∀ (l : List String) (i : Nat) (s : Store) (u : Nat)
    (e : PDError), (storeChunksGo key l i s u).2.2 = some e →
    (storeChunksGoAsync key l i s u none).2.2 = some e := by
  intro l
  induction l with
  | nil => intro i s u e h; simp [storeChunksGo] at h
  | cons ch rest ih =>
    intro i s u e h
    simp only [storeChunksGo] at h
    simp only [storeChunksGoAsync]
    by_cases hsz : MAX_ENTRY_SIZE < (calculateChunkKey key i).length + ch.length
    · rw [if_pos hsz] at h
      rw [if_pos hsz]
      simp at h
      rw [← h]
      exact goAsync_err_stays _ _ _ _ _
    · rw [if_neg hsz] at h
      rw [if_neg hsz]
      exact ih _ _ _ _ h

theorem go_usage_sum {key : String} : ∀ (l : List String) (i : Nat) (s : Store) (u : Nat),
    (storeChunksGo key l i s u).2.2 = none →
    (storeChunksGo key l i s u).2.1 = u + chunkUsageSum key l i := by
  intro l
  induction l with
  | nil => intro i s u _; simp [storeChunksGo, chunkUsageSum]
  | cons ch rest ih =>
    intro i s u h
    simp only [storeChunksGo] at h ⊢
    by_cases hsz : MAX_ENTRY_SIZE < (calculateChunkKey key i).length + ch.length
    · rw [if_pos hsz] at h
      simp at h
    · rw [if_neg hsz] at h ⊢
      rw [ih _ _ _ h]
      simp only [chunkUsageSum]
      omega

/-! ## Chunk read-loop lemmas -/

theorem readChunksGo_eq_none {store : Store} {key : String} : ∀ (n j : Nat),
    (∃ t, t < n ∧ storeGet store (calculateChunkKey key (j + t)) = "") →
    readChunksGo store key n j = none := by
  intro n
  induction n with
  | zero =>
    intro j h
    obtain ⟨t, ht, _⟩ := h
    omega
  | succ n ih =>
    intro j h
    obtain ⟨t, ht, hemp⟩ := h
    simp only [readChunksGo]
    match t with
    | 0 =>
      rw [show j + 0 = j from rfl] at hemp
      rw [if_pos hemp]
    | t + 1 =>
      by_cases h0 : storeGet store (calculateChunkKey key j) = ""
      · rw [if_pos h0]
      · rw [if_neg h0, ih (j + 1) ⟨t, by omega, by rw [show j + 1 + t = j + (t + 1) by omega]; exact hemp⟩]

theorem readChunksGo_eq_some {store : Store} {key : String} : ∀ (n j : Nat),
    (∀ t, t < n → storeGet store (calculateChunkKey key (j + t)) ≠ "") →
    readChunksGo store key n j
      = some ((List.range n).map (fun t => storeGet store (calculateChunkKey key (j + t)))) := by
  intro n
  induction n with
  | zero => intro j _; rfl
  | succ n ih =>
    intro j h
    have h0 : storeGet store (calculateChunkKey key j) ≠ "" := by
      have := h 0 (by omega)
      simpa using this
    simp only [readChunksGo, if_neg h0]
    rw [ih (j + 1) (fun t ht => by
      rw [show j + 1 + t = j + (t + 1) by omega]
      exact h (t + 1) (by omega))]
    rw [List.range_succ_eq_map]
    simp only [List.map_cons, List.map_map]
    have htail : List.map (fun t => storeGet store (calculateChunkKey key (j + 1 + t)))
          (List.range n)
        = List.map ((fun t => storeGet store (calculateChunkKey key (j + t))) ∘ Nat.succ)
          (List.range n) := by
      apply List.map_congr_left
      intro t _
      simp only [Function.comp]
      rw [show j + 1 + t = j + (t + 1) by omega]
    rw [htail]
    rfl

/-! ## Chunk-piece facts at the string level -/

theorem chunk_join (s : String) : String.join (chunk s).chunks = s := by
  show String.join ((chunkCore s.data.length s.data).map (fun l => (⟨l⟩ : String))) = s
  rw [join_map_mkStr, chunkCore_flatten _ _ (le_refl _)]

theorem chunk_pieces_ne_empty (s : String) : ∀ p ∈ (chunk s).chunks, p ≠ "" := by
  intro p hp
  obtain ⟨l, hl, rfl⟩ := List.mem_map.mp hp
  intro he
  have : l = [] := by
    have := congrArg String.data he
    simpa using this
  exact chunkCore_mem_ne_nil _ _ l hl this

/-! ## Error-normalization helpers -/

theorem normalizeSetError_ok {res : Except (PDError × PDState) PDState} {st' : PDState}
    (h : normalizeSetError res = .ok st') : res = .ok st' := by
  match res with
  | .ok s => simpa [normalizeSetError] using h
  | .error (e0, s0) =>
    exfalso
    cases e0 <;> simp [normalizeSetError] at h

theorem normalizeSetError_error {res : Except (PDError × PDState) PDState} {e : PDError}
    {st' : PDState} (h : normalizeSetError res = .error (e, st')) :
    (∃ a b, e = .quotaExceeded a b) ∨ (∃ a b, e = .entryTooLarge a b)
      ∨ e = .compressionFailed .compressOp := by
  match res with
  | .ok s => simp [normalizeSetError] at h
  | .error (e0, s0) =>
    cases e0 <;> simp [normalizeSetError] at h <;>
      first
        | exact Or.inl ⟨_, _, h.1.symm⟩
        | exact Or.inr (Or.inl ⟨_, _, h.1.symm⟩)
        | exact Or.inr (Or.inr h.1.symm)

/-- Shared witness fixtures: an identity byte transform (a legitimate
instance of the external collaborator, satisfying the round-trip contract)
and small concrete states. -/
def cId : CompressorM := ⟨fun s => some s, fun s => some s⟩

def emptyState : PDState := ⟨[], []⟩

theorem cId_roundtrip : ∀ s out, cId.compress s = some out → cId.decompress out = some s := by
  intro s out h
  cases h
  rfl

/-! ## C8 — the chunk splitter -/

/-- C8: `chunk(P)` returns the ordered pieces of `P`: their concatenation in
order equals `P`, each piece is at most `CHUNK_SIZE` long, every piece but
possibly the last is exactly `CHUNK_SIZE` long, and the empty payload yields
the empty list.  (Purity/determinism holds because `chunk` is a function.) -/
theorem chunk_correct (s : String) :
    String.join (chunk s).chunks = s
    ∧ (∀ p ∈ (chunk s).chunks, p.length ≤ CHUNK_SIZE)
    ∧ (∀ i (h : i + 1 < (chunk s).chunks.length),
        ((chunk s).chunks.get ⟨i, Nat.lt_of_succ_lt h⟩).length = CHUNK_SIZE)
    ∧ (chunk "").chunks = [] := by
  refine ⟨chunk_join s, ?_, ?_, rfl⟩
  · intro p hp
    obtain ⟨l, hl, rfl⟩ := List.mem_map.mp hp
    exact chunkCore_mem_length_le _ _ l hl
  · intro i h
    have hlen : (chunk s).chunks.length = (chunkCore s.data.length s.data).length := by
      simp [chunk]
    have hi : i + 1 < (chunkCore s.data.length s.data).length := by rw [← hlen]; exact h
    have := chunkCore_get_length s.data.length s.data (le_refl _) i hi
    simp only [chunk, List.get_eq_getElem, List.getElem_map] at *
    exact this

/-- Witness for C8 at the concrete payload `"ab"`. -/
theorem chunk_correct_w :
    String.join (chunk "ab").chunks = "ab" ∧ ("ab" : String).length ≤ CHUNK_SIZE := by
  refine ⟨(chunk_correct "ab").1, (chunk_correct "ab").2.1 "ab" ?_⟩
  show "ab" ∈ (chunk "ab").chunks
  rw [show (chunk "ab").chunks = ["ab"] from rfl]
  exact List.mem_singleton.mpr rfl

/-! ## C3 — key validation first, no mutation -/

/-- C3: an empty or reserved-prefix key makes `setPluginData` throw
`InvalidKeyError` unconditionally — for every value, every compressor
(even a failing one) and every prior state; the error carries the input
state unchanged, so neither the backing store nor the ledger is mutated. -/
theorem setPluginData_invalidKey (c : CompressorM) (nodeId : String) (st : PDState)
    (key : String) (value : JsValue) (h : key = "" ∨ hasReservedPfx key = true) :
    setPluginData c nodeId st key value = .error (.invalidKey key, st) := by
  simp only [setPluginData]
  rw [if_pos h]

/-- Witness for C3 at the empty key. -/
theorem setPluginData_invalidKey_w :
    (("" : String) = "" ∨ hasReservedPfx "" = true)
    ∧ setPluginData cId "n" emptyState "" (.jstr "v") = .error (.invalidKey "", emptyState) :=
  ⟨Or.inl rfl, setPluginData_invalidKey cId "n" emptyState "" (.jstr "v") (Or.inl rfl)⟩

/-! ## C4 — absolute size cap before compression -/

/-- C4: with a valid key, a serialized value longer than the 5MB cap makes
`setPluginData` throw `DataTooLargeError` carrying the caller's input byte
size — for every compressor, since the check precedes compression — and the
state is unchanged; a value at or below the cap never produces
`DataTooLargeError`. -/
theorem setPluginData_dataTooLarge (c : CompressorM) (nodeId : String) (st : PDState)
    (key : String) (value : JsValue)
    (hk : ¬(key = "" ∨ hasReservedPfx key = true)) :
    (DATA_CAP < blobSize (serializeValue value) →
      setPluginData c nodeId st key value
        = .error (.dataTooLarge (blobSize (serializeValue value)), st))
    ∧ (blobSize (serializeValue value) ≤ DATA_CAP →
      ∀ (sz : Nat) (st' : PDState),
        setPluginData c nodeId st key value ≠ .error (.dataTooLarge sz, st')) := by
  constructor
  · intro hbig
    simp only [setPluginData]
    rw [if_neg hk, if_pos hbig]
  · intro hsmall sz st' heq
    simp only [setPluginData] at heq
    rw [if_neg hk, if_neg (by omega : ¬ DATA_CAP < blobSize (serializeValue value))] at heq
    rcases normalizeSetError_error heq with ⟨a, b, hab⟩ | ⟨a, b, hab⟩ | hab <;> cases hab

def bigA : String := ⟨List.replicate (5 * 1024 * 1024 + 1) 'a'⟩

theorem blobSize_replicate_a (n : Nat) : blobSize (⟨List.replicate n 'a'⟩ : String) = n := by
  show blobSizeAux (List.replicate n 'a') = n
  induction n with
  | zero => rfl
  | succ n ih =>
    simp [List.replicate_succ, blobSizeAux, ih, show ('a').utf8Size = 1 from rfl]
    omega

/-- Witness for C4: a (5MB + 1)-byte string is rejected with the input size. -/
theorem setPluginData_dataTooLarge_w :
    (¬(("k" : String) = "" ∨ hasReservedPfx "k" = true))
    ∧ setPluginData cId "n" emptyState "k" (.jstr bigA)
        = .error (.dataTooLarge (5 * 1024 * 1024 + 1), emptyState) := by
  have hk : ¬(("k" : String) = "" ∨ hasReservedPfx "k" = true) := by decide
  have hsz : blobSize (serializeValue (.jstr bigA)) = 5 * 1024 * 1024 + 1 :=
    blobSize_replicate_a _
  refine ⟨hk, ?_⟩
  have h := (setPluginData_dataTooLarge cId "n" emptyState "k" (.jstr bigA) hk).1
    (by rw [hsz]; decide)
  rw [hsz] at h
  exact h

/-! ## C5 — quota check before any physical mutation -/

/-- C5: when the ledger cannot afford the estimated footprint (compressed
length plus the fixed 200-byte metadata overhead), `setPluginData` throws
`QuotaExceededError` carrying that needed estimate and the remaining bytes
as the ledger reported them at call time; the error carries the input state
unchanged — no record was written and the ledger was not touched. -/
theorem setPluginData_quotaExceeded (c : CompressorM) (nodeId : String) (st : PDState)
    (key : String) (value : JsValue) (compressed : String)
    (hk : ¬(key = "" ∨ hasReservedPfx key = true))
    (hsz : ¬ DATA_CAP < blobSize (serializeValue value))
    (hc : c.compress (serializeValue value) = some compressed)
    (hq : canStore st.ledger (compressed.length + 200) = false) :
    setPluginData c nodeId st key value
      = .error (.quotaExceeded (compressed.length + 200) (getRemainingQuota st.ledger), st) := by
  simp only [setPluginData]
  rw [if_neg hk, if_neg hsz, hc]
  simp [hq, normalizeSetError]

def fullLedger : Ledger := [(("m", "x"), 5 * 1024 * 1024)]

/-- Witness for C5 on a ledger already at the cap. -/
theorem setPluginData_quotaExceeded_w :
    canStore fullLedger (("hi" : String).length + 200) = false
    ∧ setPluginData cId "n" ⟨[], fullLedger⟩ "k" (.jstr "hi")
        = .error (.quotaExceeded (("hi" : String).length + 200) (getRemainingQuota fullLedger),
                  ⟨[], fullLedger⟩) := by
  refine ⟨by decide, ?_⟩
  exact setPluginData_quotaExceeded cId "n" ⟨[], fullLedger⟩ "k" (.jstr "hi") "hi"
    (by decide) (by decide) rfl (by decide)

/-! ## C10 — write-path error taxonomy -/

/-- The error kinds that may escape the write path: `InvalidKeyError`,
`DataTooLargeError`, `QuotaExceededError`, `EntryTooLargeError`, or
`CompressionError` with operation 'compress'. -/
def isWriteErrorKind : PDError → Prop
  | .invalidKey _ => True
  | .dataTooLarge _ => True
  | .quotaExceeded _ _ => True
  | .entryTooLarge _ _ => True
  | .compressionFailed op => op = .compressOp
  | .dataCorrupted _ => False

/-- C10: every error escaping `setPluginData`, and likewise every error
escaping `setPluginDataAsync`, is one of the five write-path kinds (never
`DataCorruptedError`, never a 'decompress' `CompressionError`), and a failure
inside the try-block that is not `QuotaExceededError` or
`EntryTooLargeError` — here, a compressor failure — escapes as
`CompressionError('compress')`. -/
theorem setPluginData_error_taxonomy (c : CompressorM) (nodeId : String) (st : PDState)
    (key : String) (value : JsValue) :
    (∀ e st', setPluginData c nodeId st key value = .error (e, st') → isWriteErrorKind e)
    ∧ (∀ e st', setPluginDataAsync c nodeId st key value = .error (e, st') → isWriteErrorKind e)
    ∧ (¬(key = "" ∨ hasReservedPfx key = true) →
       ¬ DATA_CAP < blobSize (serializeValue value) →
       c.compress (serializeValue value) = none →
       setPluginData c nodeId st key value = .error (.compressionFailed .compressOp, st)) := by
  refine ⟨?_, ?_, ?_⟩
  · intro e st' h
    simp only [setPluginData] at h
    by_cases hk : key = "" ∨ hasReservedPfx key = true
    · rw [if_pos hk] at h
      simp only [Except.error.injEq, Prod.mk.injEq] at h
      rw [← h.1]
      trivial
    · rw [if_neg hk] at h
      by_cases hsz : DATA_CAP < blobSize (serializeValue value)
      · rw [if_pos hsz] at h
        simp only [Except.error.injEq, Prod.mk.injEq] at h
        rw [← h.1]
        trivial
      · rw [if_neg hsz] at h
        rcases normalizeSetError_error h with ⟨a, b, rfl⟩ | ⟨a, b, rfl⟩ | rfl <;> trivial
  · intro e st' h
    simp only [setPluginDataAsync] at h
    by_cases hk : key = "" ∨ hasReservedPfx key = true
    · rw [if_pos hk] at h
      simp only [Except.error.injEq, Prod.mk.injEq] at h
      rw [← h.1]
      trivial
    · rw [if_neg hk] at h
      by_cases hsz : DATA_CAP < blobSize (serializeValue value)
      · rw [if_pos hsz] at h
        simp only [Except.error.injEq, Prod.mk.injEq] at h
        rw [← h.1]
        trivial
      · rw [if_neg hsz] at h
        rcases normalizeSetError_error h with ⟨a, b, rfl⟩ | ⟨a, b, rfl⟩ | rfl <;> trivial
  · intro hk hsz hcnone
    simp only [setPluginData]
    rw [if_neg hk, if_neg hsz, hcnone]
    rfl

/-- Witness for C10 at a concrete escaping error, on both forms. -/
theorem setPluginData_error_taxonomy_w :
    setPluginData cId "n" emptyState "" (.jstr "v") = .error (.invalidKey "", emptyState)
    ∧ setPluginDataAsync cId "n" emptyState "" (.jstr "v") = .error (.invalidKey "", emptyState)
    ∧ isWriteErrorKind (.invalidKey "") :=
  ⟨rfl, rfl, (setPluginData_error_taxonomy cId "n" emptyState "" (.jstr "v")).2.1 (.invalidKey "")
    emptyState rfl⟩

/-! ## Chunk-erasure lemmas -/

theorem eraseChunks_empty_stays (key : String) : ∀ (n j : Nat) (s : Store) (q : String),
    storeGet s q = "" → storeGet (eraseChunks key n j s) q = "" := by
  intro n
  induction n with
  | zero => intro j s q h; exact h
  | succ n ih =>
    intro j s q h
    exact ih (j + 1) _ q (storeGet_storePut_erase_of_empty h _)

theorem eraseChunks_erased (key : String) : ∀ (n j : Nat) (s : Store) (t : Nat), t < n →
    storeGet (eraseChunks key n j s) (calculateChunkKey key (j + t)) = "" := by
  intro n
  induction n with
  | zero => intro j s t ht; omega
  | succ n ih =>
    intro j s t ht
    match t with
    | 0 =>
      show storeGet (eraseChunks key n (j + 1) (storePut s (calculateChunkKey key j) ""))
        (calculateChunkKey key (j + 0)) = ""
      apply eraseChunks_empty_stays
      exact storeGet_storePut_self s _ ""
    | t + 1 =>
      rw [show j + (t + 1) = (j + 1) + t by omega]
      exact ih (j + 1) _ t (by omega)

theorem eraseChunks_preserve (key : String) : ∀ (n j : Nat) (s : Store) (q : String),
    (∀ t, q ≠ calculateChunkKey key (j + t)) →
    storeGet (eraseChunks key n j s) q = storeGet s q := by
  intro n
  induction n with
  | zero => intro j s q _; rfl
  | succ n ih =>
    intro j s q hq
    have h1 := ih (j + 1) (storePut s (calculateChunkKey key j) "") q
      (fun t => by rw [show j + 1 + t = j + (t + 1) by omega]; exact hq (t + 1))
    rw [show eraseChunks key (n + 1) j s
        = eraseChunks key n (j + 1) (storePut s (calculateChunkKey key j) "") from rfl]
    rw [h1, storeGet_storePut_ne _ _ (by simpa using hq 0)]

/-! ## C2 — delete erases what it can address -/

/-- C2 (amended): `deletePluginData` always erases the bare key record and
the ledger entry; when the metadata record exists and parses, it also erases
the metadata record, and (when the metadata is flagged chunked) every chunk
record up to `totalChunks`; but when the metadata text is unparsable, the
`catch` fires before the erasure statements and the metadata record
survives. `deletePluginData` is a total function: it never throws. -/
theorem deletePluginData_spec (nodeId : String) (st : PDState) (key : String) :
    (storeGet (deletePluginData nodeId st key).store key = ""
      ∧ getKeyUsage (deletePluginData nodeId st key).ledger nodeId key = 0)
    ∧ (∀ md, storeGet st.store (metaKeyOf key) ≠ "" →
        jsonParse (storeGet st.store (metaKeyOf key)) = some md →
        storeGet (deletePluginData nodeId st key).store (metaKeyOf key) = ""
        ∧ (jsTruthy (jfield md "chunked") = true →
           ∀ t, t < totalChunksOf md →
             storeGet (deletePluginData nodeId st key).store (calculateChunkKey key t) = ""))
    ∧ (storeGet st.store (metaKeyOf key) ≠ "" →
        jsonParse (storeGet st.store (metaKeyOf key)) = none →
        storeGet (deletePluginData nodeId st key).store (metaKeyOf key)
          = storeGet st.store (metaKeyOf key)) := by
  refine ⟨⟨?_, ?_⟩, ?_, ?_⟩
  · exact storeGet_storePut_self _ key ""
  · exact getKeyUsage_removeUsage_self st.ledger nodeId key
  · intro md hne hp
    constructor
    · simp only [deletePluginData, if_neg hne, hp]
      have hmeta_ne_key : metaKeyOf key ≠ key := metaKey_ne_self key
      rw [storeGet_storePut_ne _ _ hmeta_ne_key, storeGet_storePut_self]
    · intro hch t ht
      simp only [deletePluginData, if_neg hne, hp, if_pos hch]
      apply storeGet_storePut_erase_of_empty
      apply storeGet_storePut_erase_of_empty
      have := eraseChunks_erased key (totalChunksOf md) 0 st.store t ht
      simpa using this
  · intro hne hp
    simp only [deletePluginData, if_neg hne, hp]
    exact storeGet_storePut_ne _ _ (metaKey_ne_self key)

/-- Counterexample for C2 as stated: with unparsable metadata the metadata
record is not erased by `deletePluginData`. -/
theorem deletePluginData_cex :
    storeGet (deletePluginData "n" ⟨[("__fpdu_meta_k", "x")], []⟩ "k").store "__fpdu_meta_k" = "x"
    ∧ ("x" : String) ≠ "" := ⟨rfl, by decide⟩

/-- Witness for C2 at a parsable chunked metadata record. -/
theorem deletePluginData_spec_w :
    storeGet (deletePluginData "n"
        ⟨[("__fpdu_meta_k", "\x7b\"chunked\":true,\"totalChunks\":1\x7d"),
          ("__fpdu_chunk_k_0", "zz")], []⟩ "k").store "__fpdu_meta_k" = ""
    ∧ storeGet (deletePluginData "n"
        ⟨[("__fpdu_meta_k", "\x7b\"chunked\":true,\"totalChunks\":1\x7d"),
          ("__fpdu_chunk_k_0", "zz")], []⟩ "k").store "__fpdu_chunk_k_0" = "" := by
  have h := (deletePluginData_spec "n"
      ⟨[("__fpdu_meta_k", "\x7b\"chunked\":true,\"totalChunks\":1\x7d"),
        ("__fpdu_chunk_k_0", "zz")], []⟩ "k").2.1
      (.jobj [("chunked", .jbool true), ("totalChunks", .jnum "1")]) (by decide) (by rfl)
  exact ⟨h.1, h.2 rfl 0 (by decide)⟩

/-! ## C7 — delete never throws and is idempotent -/

/-- C7: `deletePluginData` is a total function (it never raises); deleting
the same key twice produces exactly the state of deleting it once (so
`listKeys` is unaffected by the second deletion), and deleting a
never-stored key is a no-op. -/
theorem deletePluginData_idem (nodeId : String) (st : PDState) (key : String) :
    deletePluginData nodeId (deletePluginData nodeId st key) key
      = deletePluginData nodeId st key
    ∧ getPluginDataKeys (deletePluginData nodeId (deletePluginData nodeId st key) key)
        = getPluginDataKeys (deletePluginData nodeId st key)
    ∧ ((∀ p ∈ st.store, p.1 ≠ key) → storeGet st.store (metaKeyOf key) = "" →
        (∀ q ∈ st.ledger, q.1 ≠ (nodeId, key)) →
        deletePluginData nodeId st key = st) := by
  have hmk : metaKeyOf key ≠ key := metaKey_ne_self key
  have hput : ∀ (s : Store) (q : String), storePut s q "" = filterKey s q := by
    intro s q
    rfl
  have hledger_def : ∀ X : PDState, (deletePluginData nodeId X key).ledger
      = removeUsage X.ledger nodeId key := fun _ => rfl
  have hstate : ∀ X : PDState, deletePluginData nodeId X key
      = ⟨(deletePluginData nodeId X key).store, (deletePluginData nodeId X key).ledger⟩ :=
    fun _ => rfl
  have hidem : deletePluginData nodeId (deletePluginData nodeId st key) key
      = deletePluginData nodeId st key := by
    have hled2 : (deletePluginData nodeId (deletePluginData nodeId st key) key).ledger
        = (deletePluginData nodeId st key).ledger := by
      rw [hledger_def, hledger_def]
      exact removeUsage_removeUsage _ _ _
    have hsto2 : (deletePluginData nodeId (deletePluginData nodeId st key) key).store
        = (deletePluginData nodeId st key).store := by
      by_cases hne : storeGet st.store (metaKeyOf key) = ""
      · have hst1 : (deletePluginData nodeId st key).store = filterKey st.store key := by
          show storePut _ key "" = _
          rw [if_pos hne, hput]
        have hmeta2 : storeGet (deletePluginData nodeId st key).store (metaKeyOf key) = "" := by
          rw [hst1, storeGet_filterKey_ne _ hmk]
          exact hne
        show storePut _ key "" = _
        rw [if_pos hmeta2, hput, hst1, filterKey_filterKey]
      · cases hp : jsonParse (storeGet st.store (metaKeyOf key)) with
        | none =>
          have hst1 : (deletePluginData nodeId st key).store = filterKey st.store key := by
            show storePut _ key "" = _
            rw [if_neg hne, hp]
            rfl
          have hmeta2 : storeGet (deletePluginData nodeId st key).store (metaKeyOf key)
              = storeGet st.store (metaKeyOf key) := by
            rw [hst1, storeGet_filterKey_ne _ hmk]
          show storePut _ key "" = _
          rw [if_neg (by rw [hmeta2]; exact hne), hmeta2, hp, hput, hst1, filterKey_filterKey]
        | some md =>
          have hst1 : (deletePluginData nodeId st key).store
              = filterKey (filterKey
                  (if jsTruthy (jfield md "chunked") = true
                   then eraseChunks key (totalChunksOf md) 0 st.store
                   else st.store) (metaKeyOf key)) key := by
            show storePut _ key "" = _
            rw [if_neg hne, hp]
            rfl
          have hmeta2 : storeGet (deletePluginData nodeId st key).store (metaKeyOf key) = "" := by
            rw [hst1, storeGet_filterKey_ne _ hmk]
            exact storeGet_filterKey_self _ _
          show storePut _ key "" = _
          rw [if_pos hmeta2, hput, hst1, filterKey_filterKey]
    calc deletePluginData nodeId (deletePluginData nodeId st key) key
        = ⟨(deletePluginData nodeId (deletePluginData nodeId st key) key).store,
           (deletePluginData nodeId (deletePluginData nodeId st key) key).ledger⟩ := hstate _
      _ = ⟨(deletePluginData nodeId st key).store,
           (deletePluginData nodeId st key).ledger⟩ := by rw [hsto2, hled2]
      _ = deletePluginData nodeId st key := (hstate _).symm
  refine ⟨hidem, congrArg _ hidem, ?_⟩
  intro hkeys hmeta hled
  have hstore : filterKey st.store key = st.store :=
    List.filter_eq_self.mpr (fun p hp => by simpa using hkeys p hp)
  have hledeq : removeUsage st.ledger nodeId key = st.ledger :=
    List.filter_eq_self.mpr (fun q hq => by simpa using hled q hq)
  calc deletePluginData nodeId st key
      = ⟨(deletePluginData nodeId st key).store, (deletePluginData nodeId st key).ledger⟩ :=
        hstate _
    _ = ⟨st.store, st.ledger⟩ := by
        rw [hledger_def, hledeq]
        have : (deletePluginData nodeId st key).store = filterKey st.store key := by
          show storePut _ key "" = _
          rw [if_pos hmeta, hput]
        rw [this, hstore]
    _ = st := rfl

/-- Witness for C7's no-op part at a concrete state. -/
theorem deletePluginData_idem_w :
    deletePluginData "n" ⟨[("other", "v")], [(("n", "other"), 3)]⟩ "k"
      = ⟨[("other", "v")], [(("n", "other"), 3)]⟩ :=
  (deletePluginData_idem "n" ⟨[("other", "v")], [(("n", "other"), 3)]⟩ "k").2.2
    (by decide) (by decide) (by decide)

/-! ## C6 — managed reads fail uniformly with DataCorruptedError -/

/-- C6: on a managed key (metadata record present), `getPluginData` either
succeeds or fails with `DataCorruptedError(key)` — never any other error,
whatever the root cause; in particular it fails so when the metadata is
unparsable, when any of the `totalChunks` chunk records read in index order
is missing or empty, and when all chunks are present but the checksum of
the decompressed payload mismatches the metadata checksum. -/
theorem getPluginData_corrupted (c : CompressorM) (st : PDState) (key : String)
    (hm : storeGet st.store (metaKeyOf key) ≠ "") :
    (∀ e, getPluginData c st key = .error e → e = .dataCorrupted key)
    ∧ (jsonParse (storeGet st.store (metaKeyOf key)) = none →
        getPluginData c st key = .error (.dataCorrupted key))
    ∧ (∀ md, jsonParse (storeGet st.store (metaKeyOf key)) = some md →
        jsTruthy (jfield md "chunked") = true →
        (∃ t, t < totalChunksOf md ∧ storeGet st.store (calculateChunkKey key t) = "") →
        getPluginData c st key = .error (.dataCorrupted key))
    ∧ (∀ md, jsonParse (storeGet st.store (metaKeyOf key)) = some md →
        jsTruthy (jfield md "chunked") = true →
        (∀ t, t < totalChunksOf md → storeGet st.store (calculateChunkKey key t) ≠ "") →
        ∀ d, c.decompress (String.join ((List.range (totalChunksOf md)).map
              (fun t => storeGet st.store (calculateChunkKey key t)))) = some d →
        checksumOkOf d (jfield md "checksum") = false →
        getPluginData c st key = .error (.dataCorrupted key)) := by
  have hwrap : ∀ e0 : PDError,
      getPluginDataCore c st key (storeGet st.store (metaKeyOf key)) = .error e0 →
      getPluginData c st key = .error (.dataCorrupted key) := by
    intro e0 hcore
    simp only [getPluginData, if_neg hm, hcore]
  refine ⟨?_, ?_, ?_, ?_⟩
  · intro e h
    simp only [getPluginData, if_neg hm] at h
    cases hcore : getPluginDataCore c st key (storeGet st.store (metaKeyOf key)) with
    | ok v => rw [hcore] at h; cases h
    | error e0 =>
      rw [hcore] at h
      exact (Except.error.inj h).symm
  · intro hp
    apply hwrap (.dataCorrupted key)
    simp only [getPluginDataCore, hp]
  · intro md hp hch hmiss
    have hread : readChunksGo st.store key (totalChunksOf md) 0 = none := by
      apply readChunksGo_eq_none
      obtain ⟨t, ht, hemp⟩ := hmiss
      exact ⟨t, ht, by simpa using hemp⟩
    apply hwrap (.dataCorrupted key)
    simp only [getPluginDataCore, hp, if_pos hch, retrieveChunked, hread]
  · intro md hp hch hpresent d hd hcks
    have hmap : (List.range (totalChunksOf md)).map
          (fun t => storeGet st.store (calculateChunkKey key (0 + t)))
        = (List.range (totalChunksOf md)).map
          (fun t => storeGet st.store (calculateChunkKey key t)) := by
      apply List.map_congr_left
      intro t _
      rw [Nat.zero_add]
    have hread : readChunksGo st.store key (totalChunksOf md) 0
        = some ((List.range (totalChunksOf md)).map
            (fun t => storeGet st.store (calculateChunkKey key t))) := by
      rw [readChunksGo_eq_some _ _ (fun t ht => by simpa using hpresent t ht), hmap]
    apply hwrap (.dataCorrupted key)
    simp only [getPluginDataCore, hp, if_pos hch, retrieveChunked, hread, hd, hcks]
    simp

def missingChunkState : PDState :=
  ⟨[("__fpdu_meta_k", "\x7b\"chunked\":true,\"totalChunks\":2\x7d"),
    ("__fpdu_chunk_k_0", "zz")], []⟩

/-- Witness for C6: a managed key whose second chunk record is missing. -/
theorem getPluginData_corrupted_w :
    storeGet missingChunkState.store (metaKeyOf "k") ≠ ""
    ∧ getPluginData cId missingChunkState "k" = .error (.dataCorrupted "k") := by
  have hm : storeGet missingChunkState.store (metaKeyOf "k") ≠ "" := by decide
  refine ⟨hm, ?_⟩
  exact (getPluginData_corrupted cId missingChunkState "k" hm).2.2.1
    (.jobj [("chunked", .jbool true), ("totalChunks", .jnum "2")]) (by rfl) rfl
    ⟨1, by decide, by decide⟩

/-! ## C1 — round trip -/

/-- Values whose stored text decodes back to themselves: strings whose text
is not valid JSON (the decode-fallback returns the raw text), and structured
values whose `JSON.stringify` output parses back to the same value. -/
def GoodValue (v : JsValue) : Prop :=
  match v with
  | .jstr s => jsonParse s = none
  | v => jsonParse (stringifyJson v) = some v

theorem decodeWithFallback_good {v : JsValue} (hv : GoodValue v) :
    decodeWithFallback (serializeValue v) = v := by
  cases v <;> simp only [GoodValue] at hv <;> simp [decodeWithFallback, serializeValue, hv]

theorem storeSingle_ok_inv {nodeId key compressed data : String} {X st' : PDState}
    (h : storeSingle nodeId key compressed data X = .ok st') :
    st' = ⟨storePut (storePut X.store key compressed) (metaKeyOf key) (singleMetadata data),
           recordUsage X.ledger nodeId key
             (compressed.length + (metaKeyOf key).length + (singleMetadata data).length)⟩ := by
  simp only [storeSingle] at h
  by_cases h1 : MAX_ENTRY_SIZE < key.length + compressed.length
  · rw [if_pos h1] at h
    cases h
  · rw [if_neg h1] at h
    by_cases h2 : MAX_ENTRY_SIZE < (metaKeyOf key).length + (singleMetadata data).length
    · rw [if_pos h2] at h
      cases h
    · rw [if_neg h2] at h
      exact (Except.ok.inj h).symm

theorem storeChunked_ok_inv {nodeId key compressed data : String} {X st' : PDState}
    (h : storeChunked nodeId key compressed data X = .ok st') :
    ∃ s1 u, storeChunksGo key (chunk compressed).chunks 0 X.store 0 = (s1, u, none)
      ∧ st' = ⟨storePut s1 (metaKeyOf key)
                 (chunkedMetadata data (chunk compressed).chunks.length),
               recordUsage X.ledger nodeId key
                 (u + (metaKeyOf key).length
                    + (chunkedMetadata data (chunk compressed).chunks.length).length)⟩ := by
  simp only [storeChunked] at h
  rcases hgo : storeChunksGo key (chunk compressed).chunks 0 X.store 0 with ⟨s1, u, err⟩
  rw [hgo] at h
  cases err with
  | some e => exact absurd h (by simp)
  | none =>
    refine ⟨s1, u, rfl, ?_⟩
    dsimp only at h
    by_cases h2 : MAX_ENTRY_SIZE < (metaKeyOf key).length
        + (chunkedMetadata data (chunk compressed).chunks.length).length
    · rw [if_pos h2] at h
      exact absurd h (by simp)
    · rw [if_neg h2] at h
      exact (Except.ok.inj h).symm

theorem get_single_state (c : CompressorM) (key : String) (S : Store) (L : Ledger)
    (compressed data : String) (hdec : c.decompress compressed = some data) :
    getPluginData c
      ⟨storePut (storePut S key compressed) (metaKeyOf key) (singleMetadata data), L⟩ key
      = .ok (decodeWithFallback data) := by
  have hmget : storeGet (storePut (storePut S key compressed) (metaKeyOf key)
      (singleMetadata data)) (metaKeyOf key) = singleMetadata data := storeGet_storePut_self _ _ _
  have hkget : storeGet (storePut (storePut S key compressed) (metaKeyOf key)
      (singleMetadata data)) key = compressed := by
    rw [storeGet_storePut_ne _ _ (Ne.symm (metaKey_ne_self key))]
    exact storeGet_storePut_self _ _ _
  simp only [getPluginData, hmget]
  rw [if_neg (singleMetadata_ne_empty data)]
  have hcore : getPluginDataCore c
      ⟨storePut (storePut S key compressed) (metaKeyOf key) (singleMetadata data), L⟩ key
      (singleMetadata data) = .ok (decodeWithFallback data) := by
    simp only [getPluginDataCore, jsonParse_singleMetadata data, jfield_mdSingle_chunked]
    rw [if_neg (by simp [jsTruthy])]
    show (match c.decompress (storeGet (storePut (storePut S key compressed) (metaKeyOf key)
        (singleMetadata data)) key) with
      | none => Except.error (PDError.compressionFailed CompOp.decompressOp)
      | some d =>
        if checksumOkOf d (jfield (mdSingleVal data) "checksum") = true
        then Except.ok (decodeWithFallback d)
        else Except.error (PDError.dataCorrupted key)) = Except.ok (decodeWithFallback data)
    rw [hkget, hdec]
    dsimp only
    rw [jfield_mdSingle_checksum, if_pos (checksumOkOf_self data)]
  rw [hcore]

theorem get_chunked_state (c : CompressorM) (key : String) (S : Store) (L : Ledger)
    (compressed data : String) {s1 : Store} {u : Nat}
    (hgo : storeChunksGo key (chunk compressed).chunks 0 S 0 = (s1, u, none))
    (hdec : c.decompress compressed = some data) :
    getPluginData c
      ⟨storePut s1 (metaKeyOf key) (chunkedMetadata data (chunk compressed).chunks.length), L⟩
      key = .ok (decodeWithFallback data) := by
  have hmget : storeGet (storePut s1 (metaKeyOf key)
        (chunkedMetadata data (chunk compressed).chunks.length)) (metaKeyOf key)
      = chunkedMetadata data (chunk compressed).chunks.length := storeGet_storePut_self _ _ _
  have hchunkget : ∀ t (ht : t < (chunk compressed).chunks.length),
      storeGet (storePut s1 (metaKeyOf key)
        (chunkedMetadata data (chunk compressed).chunks.length)) (calculateChunkKey key t)
      = (chunk compressed).chunks.get ⟨t, ht⟩ := by
    intro t ht
    rw [storeGet_storePut_ne _ _ (chunkKey_ne_metaKey key key t)]
    have := storeChunksGo_get (chunk compressed).chunks 0 S 0 hgo t ht
    simpa using this
  have hne : ∀ t, t < (chunk compressed).chunks.length →
      storeGet (storePut s1 (metaKeyOf key)
        (chunkedMetadata data (chunk compressed).chunks.length)) (calculateChunkKey key t)
      ≠ "" := by
    intro t ht
    rw [hchunkget t ht]
    exact chunk_pieces_ne_empty compressed _ (List.get_mem _ _ _)
  simp only [getPluginData, hmget]
  rw [if_neg (chunkedMetadata_ne_empty data _)]
  have hcore : getPluginDataCore c
      ⟨storePut s1 (metaKeyOf key) (chunkedMetadata data (chunk compressed).chunks.length), L⟩
      key (chunkedMetadata data (chunk compressed).chunks.length)
      = .ok (decodeWithFallback data) := by
    simp only [getPluginDataCore, jsonParse_chunkedMetadata data, jfield_mdChunked_chunked]
    rw [if_pos (show jsTruthy (some (JsValue.jbool true)) = true from rfl)]
    simp only [retrieveChunked, totalChunksOf_mdChunked]
    have hlisteq : (List.range (chunk compressed).chunks.length).map
          (fun t => storeGet (storePut s1 (metaKeyOf key)
            (chunkedMetadata data (chunk compressed).chunks.length))
            (calculateChunkKey key (0 + t)))
        = (chunk compressed).chunks := by
      apply List.ext_get (by simp)
      intro i h1 h2
      simp only [List.get_eq_getElem, List.getElem_map, List.getElem_range]
      have hi : i < (chunk compressed).chunks.length := h2
      have := hchunkget i hi
      simp only [List.get_eq_getElem] at this
      rw [show (0 : Nat) + i = i from by omega]
      exact this
    have hread : readChunksGo (storePut s1 (metaKeyOf key)
          (chunkedMetadata data (chunk compressed).chunks.length)) key
          (chunk compressed).chunks.length 0
        = some (chunk compressed).chunks := by
      rw [readChunksGo_eq_some _ _ (fun t ht => by
        have := hne t ht
        simpa using this)]
      rw [hlisteq]
    rw [hread]
    show (match c.decompress (String.join (chunk compressed).chunks) with
      | none => Except.error (PDError.compressionFailed CompOp.decompressOp)
      | some d =>
        if checksumOkOf d (jfield
            (mdChunkedVal data (chunk compressed).chunks.length) "checksum") = true
        then Except.ok (decodeWithFallback d)
        else Except.error (PDError.dataCorrupted key))
      = Except.ok (decodeWithFallback data)
    rw [chunk_join, hdec]
    dsimp only
    rw [jfield_mdChunked_checksum, if_pos (checksumOkOf_self data)]
  rw [hcore]

/-- C1 (amended): for every valid key and every value the write path accepts,
a successful `setPluginData` followed by `getPluginData` of the same key
returns exactly the stored value — for string values whose text is not
itself valid JSON (including the empty string and payloads whose compressed
form spans multiple chunks), and for structured values whose JSON rendering
parses back to themselves; a string value that parses as JSON is instead
returned as the parsed structure (see the counterexample).  The compressor
is any byte transform satisfying the round-trip contract of spec section 6. -/
theorem setPluginData_roundtrip (c : CompressorM)
    (hc : ∀ s out, c.compress s = some out → c.decompress out = some s)
    (nodeId : String) (st : PDState) (key : String) (value : JsValue) (st' : PDState)
    (hv : GoodValue value)
    (hs : setPluginData c nodeId st key value = .ok st') :
    getPluginData c st' key = .ok value := by
  by_cases hk : key = "" ∨ hasReservedPfx key = true
  · simp only [setPluginData] at hs
    rw [if_pos hk] at hs
    exact absurd hs (by simp)
  · simp only [setPluginData] at hs
    rw [if_neg hk] at hs
    by_cases hsz : DATA_CAP < blobSize (serializeValue value)
    · rw [if_pos hsz] at hs
      exact absurd hs (by simp)
    · rw [if_neg hsz] at hs
      cases hcomp : c.compress (serializeValue value) with
      | none =>
        rw [hcomp] at hs
        exact absurd (normalizeSetError_ok hs) (by simp)
      | some compressed =>
        rw [hcomp] at hs
        have hs' := normalizeSetError_ok hs
        dsimp only at hs'
        cases hq : canStore st.ledger (compressed.length + 200) with
        | false =>
          rw [hq] at hs'
          simp at hs'
        | true =>
          rw [hq] at hs'
          rw [if_neg (by decide : ¬ ((!true) = true))] at hs'
          by_cases hbr : getSafeChunkSize key < (compressed.length : Int)
          · rw [if_pos hbr] at hs'
            obtain ⟨s1, u, hgo, hst'⟩ := storeChunked_ok_inv hs'
            subst hst'
            rw [get_chunked_state c key _ _ compressed (serializeValue value) hgo (hc _ _ hcomp)]
            rw [decodeWithFallback_good hv]
          · rw [if_neg hbr] at hs'
            have hst' := storeSingle_ok_inv hs'
            subst hst'
            rw [get_single_state c key _ _ compressed (serializeValue value) (hc _ _ hcomp)]
            rw [decodeWithFallback_good hv]

/-- Counterexample for C1 as stated: storing the plain string `"123"` under a
valid key succeeds, but the retrieve returns the JSON number `123` (the
decode path parses the text), which does not deep-equal the stored string. -/
theorem setThenGet_cex :
    setThenGet cId "n" emptyState "k" (.jstr "123") = .ok (.jnum "123")
    ∧ JsValue.jnum "123" ≠ JsValue.jstr "123" :=
  ⟨rfl, fun h => JsValue.noConfusion h⟩

def w1State : PDState :=
  match setPluginData cId "n" emptyState "k" (.jstr "hello") with
  | .ok st => st
  | .error _ => emptyState

/-- Witness for C1 (amended) at the stored string `"hello"`. -/
theorem setPluginData_roundtrip_w :
    GoodValue (.jstr "hello")
    ∧ setPluginData cId "n" emptyState "k" (.jstr "hello") = .ok w1State
    ∧ getPluginData cId w1State "k" = .ok (.jstr "hello") := by
  have h1 : GoodValue (.jstr "hello") := by
    show jsonParse "hello" = none
    rfl
  have h2 : setPluginData cId "n" emptyState "k" (.jstr "hello") = .ok w1State := by rfl
  exact ⟨h1, h2,
    setPluginData_roundtrip cId cId_roundtrip "n" emptyState "k" (.jstr "hello") w1State h1 h2⟩

/-! ## C9 — direct and suspending write forms are observably equivalent -/

/-- Observable equivalence of two write results: both succeed with the same
final state (identical stored bytes at every physical key and identical
ledger), or both fail with the same error. -/
def SetBehaviorEq (r1 r2 : Except (PDError × PDState) PDState) : Prop :=
  (∃ s, r1 = .ok s ∧ r2 = .ok s)
    ∨ (∃ e s1 s2, r1 = .error (e, s1) ∧ r2 = .error (e, s2))

theorem setBehaviorEq_refl (r : Except (PDError × PDState) PDState) : SetBehaviorEq r r := by
  cases r with
  | ok s => exact Or.inl ⟨s, rfl, rfl⟩
  | error p =>
    rcases p with ⟨e, s⟩
    exact Or.inr ⟨e, s, s, rfl, rfl⟩

theorem setBehaviorEq_normalize {r1 r2 : Except (PDError × PDState) PDState}
    (h : SetBehaviorEq r1 r2) :
    SetBehaviorEq (normalizeSetError r1) (normalizeSetError r2) := by
  rcases h with ⟨s, h1, h2⟩ | ⟨e, a, b, h1, h2⟩
  · rw [h1, h2]
    exact Or.inl ⟨s, rfl, rfl⟩
  · rw [h1, h2]
    cases e <;> exact Or.inr ⟨_, _, _, rfl, rfl⟩

theorem storeChunked_async_equiv (nodeId key compressed data : String) (X : PDState) :
    SetBehaviorEq (storeChunked nodeId key compressed data X)
      (storeChunkedAsync nodeId key compressed data X) := by
  simp only [storeChunked, storeChunkedAsync]
  rcases hgo : storeChunksGo key (chunk compressed).chunks 0 X.store 0 with ⟨s1, u, err⟩
  cases err with
  | none =>
    rw [goAsync_of_go_none (chunk compressed).chunks 0 X.store 0 (by rw [hgo])]
    rw [hgo]
    dsimp only
    have hu : u = chunkUsageSum key (chunk compressed).chunks 0 := by
      have h := go_usage_sum (chunk compressed).chunks 0 X.store 0 (by rw [hgo])
      rw [hgo] at h
      simpa using h
    rw [← hu]
    by_cases h2 : MAX_ENTRY_SIZE < (metaKeyOf key).length
        + (chunkedMetadata data (chunk compressed).chunks.length).length
    · rw [if_pos h2]
      exact Or.inr ⟨_, _, _, rfl, rfl⟩
    · rw [if_neg h2]
      exact Or.inl ⟨_, rfl, rfl⟩
  | some e =>
    rcases hgoA : storeChunksGoAsync key (chunk compressed).chunks 0 X.store 0 none
      with ⟨s2, u2, err2⟩
    have herr2 : err2 = some e := by
      have h := goAsync_of_go_err (chunk compressed).chunks 0 X.store 0 e (by rw [hgo])
      rw [hgoA] at h
      exact h
    subst herr2
    dsimp only
    exact Or.inr ⟨e, _, _, rfl, rfl⟩

/-- C9: on identical inputs over an identical initial state, the direct
form `setPluginData` and the suspending form `setPluginDataAsync` either
both succeed with identical stored bytes at every physical key and an
identical ledger, or both fail with the same error.  (On the
`EntryTooLargeError` path the two forms may leave different partial chunk
writes behind — the async `Promise.all` keeps writing valid later chunks —
which is why only error equality, not error-state equality, holds there.) -/
theorem setPluginData_async_equiv (c : CompressorM) (nodeId : String) (st : PDState)
    (key : String) (value : JsValue) :
    SetBehaviorEq (setPluginData c nodeId st key value)
      (setPluginDataAsync c nodeId st key value) := by
  simp only [setPluginData, setPluginDataAsync]
  by_cases hk : key = "" ∨ hasReservedPfx key = true
  · simp only [if_pos hk]
    exact Or.inr ⟨_, _, _, rfl, rfl⟩
  · simp only [if_neg hk]
    by_cases hsz : DATA_CAP < blobSize (serializeValue value)
    · simp only [if_pos hsz]
      exact Or.inr ⟨_, _, _, rfl, rfl⟩
    · simp only [if_neg hsz]
      cases hcomp : c.compress (serializeValue value) with
      | none =>
        exact Or.inr ⟨_, _, _, rfl, rfl⟩
      | some compressed =>
        dsimp only
        cases hq : canStore st.ledger (compressed.length + 200) with
        | false =>
          simp only [if_pos (by decide : ((!false) = true))]
          exact Or.inr ⟨_, _, _, rfl, rfl⟩
        | true =>
          simp only [if_neg (by decide : ¬ ((!true) = true))]
          by_cases hbr : getSafeChunkSize key < (compressed.length : Int)
          · simp only [if_pos hbr]
            exact setBehaviorEq_normalize (storeChunked_async_equiv nodeId key compressed
              (serializeValue value) _)
          · simp only [if_neg hbr]
            exact setBehaviorEq_normalize (setBehaviorEq_refl _)

end Figjar
